import Mathlib

/-!
Verification of the PageRank implementation in `src/pagerank.py`.

The Python program is shallowly embedded as follows.

* A Python `dict` is an insertion-ordered association list `List (String × α)`.
* `d[k]` reads return `Option α`; `none` models a `KeyError`.
* Division returns `Option ℚ`; `none` models a `ZeroDivisionError`.
  Python floats are modelled as exact rationals `ℚ`.
* The ambient random source (`random.choice`, `random.choices`) is modelled
  as a stream `ℕ → ℕ` of draws; each library call consumes one stream value
  `r` and selects an element of its candidate list by index `r % length`.
  Quantifying over all streams covers every sequence of outcomes the
  weighted/uniform library draws can produce, and `none` models the library
  error on an empty candidate sequence.
* The unbounded `while` loop of `iterate_pagerank` is given explicit fuel;
  `none` models running out of fuel, so "the loop terminates" becomes
  "there is a fuel value for which the result is `some`".
-/

namespace PageRank

/-- A Python dict, modelled as an insertion-ordered association list. -/
abbrev Dict (α : Type) := List (String × α)

/-- Python `list(d.keys())`: the keys of a dict in insertion order. -/
def keysOf {α : Type} (m : Dict α) : List String := m.map Prod.fst

/-- Python `d[k]` (read): the value of the first binding of `k`.
`none` models the `KeyError` raised on a missing key. -/
def dget {α : Type} (m : Dict α) (k : String) : Option α :=
  match m with
  | [] => none
  | kv :: rest => if kv.1 = k then some kv.2 else dget rest k

/-- Python `d[k] = v` for a key that is already present: replace the bound
value in place (the source only assigns to keys it just created). -/
def dset {α : Type} (m : Dict α) (k : String) (v : α) : Dict α :=
  m.map (fun kv => if kv.1 = k then (k, v) else kv)

/-- Python `d[k] += x`: `none` models the `KeyError` on a missing key. -/
def addTo (m : Dict ℚ) (k : String) (x : ℚ) : Option (Dict ℚ) :=
  match dget m k with
  | none => none
  | some v => some (dset m k (v + x))

/-- Python division; `none` models the `ZeroDivisionError`. -/
def pydiv (a b : ℚ) : Option ℚ := if b = 0 then none else some (a / b)

/-- One random selection from a list, fed by the next stream value `r`:
models `random.choice` and the single draw `random.choices(keys, weights)`
of the source. `none` models the library error on an empty sequence. -/
def pychoice (l : List String) (r : ℕ) : Option String := l.get? (r % l.length)

/-- The convergence tolerance constant `TOLERANCE = 1e-3` of the source. -/
def TOLERANCE : ℚ := 1 / 1000

/-- Embedding of `transition_model(corpus, page, damping_factor)`
(src/pagerank.py lines 53-78): `n = len(corpus[page])`, `N = len(corpus)`,
`p = (1-damping_factor)/N`, `tm = {k: p for k in corpus.keys()}`, then one
pass over `corpus.items()`; on the entry of `page` itself a sink resets
every value to `1/N`, otherwise each link receives `+= damping_factor/n`. -/
def transition_model (corpus : Dict (List String)) (page : String)
    (damping_factor : ℚ) : Option (Dict ℚ) := do
  let links ← dget corpus page
  let n : ℚ := links.length
  let N : ℚ := corpus.length
  let p ← pydiv (1 - damping_factor) N
  let tm : Dict ℚ := corpus.map (fun kv => (kv.1, p))
  corpus.foldlM (fun tm kv =>
    if kv.1 = page then
      if kv.2 = [] then do
        let u ← pydiv 1 N
        pure (corpus.foldl (fun tm2 kv2 => dset tm2 kv2.1 u) tm)
      else
        kv.2.foldlM (fun tm2 link => do
          let q ← pydiv damping_factor n
          addTo tm2 link q) tm
    else pure tm) tm

/-- The sampling loop `for i in range(n)` of `sample_pagerank`
(src/pagerank.py lines 95-103), as structural recursion on the remaining
iteration count; `i` is the Python loop index and `samples` the list built
by `samples.append(next_page)`.  Stream value `stream (i+1)` feeds the
weighted draw (`stream 0` is consumed by the initial `random.choice`). -/
def sampleWalk (corpus : Dict (List String)) (damping_factor : ℚ) (stream : ℕ → ℕ) :
    ℕ → ℕ → List String → String → Option (List String × String)
  | 0, _, samples, page => pure (samples, page)
  | count + 1, i, samples, page => do
    let tm ← transition_model corpus page damping_factor
    let kys := keysOf tm
    let next_page ← pychoice kys (stream (i + 1))
    sampleWalk corpus damping_factor stream count (i + 1) (samples ++ [next_page]) next_page

/-- Embedding of `sample_pagerank(corpus, damping_factor, n)`
(src/pagerank.py lines 81-109): choose a starting page uniformly, perform
`n` weighted draws (`range(n)` is empty for `n ≤ 0`), then build
`pr = {k: samples.count(k)/n for k in corpus}` in corpus key order. -/
def sample_pagerank (corpus : Dict (List String)) (damping_factor : ℚ) (n : ℤ)
    (stream : ℕ → ℕ) : Option (Dict ℚ) := do
  let starting_page ← pychoice (keysOf corpus) (stream 0)
  let st ← sampleWalk corpus damping_factor stream n.toNat 0 [] starting_page
  corpus.mapM (fun kv => do
    let v ← pydiv (st.1.count kv.1 : ℚ) (n : ℚ)
    pure (kv.1, v))

/-- Embedding of `calculate_pr(corpus, damping_factor, current, N)`
(src/pagerank.py lines 141-149): `new = {k: (1-damping_factor)/N ...}`,
then for every `page` and every `(key, links)` item, a sink key adds
`damping_factor * current[key] / N` to `new[page]`, and a key linking to
`page` adds `damping_factor * current[key] / len(links)`. -/
def calculate_pr (corpus : Dict (List String)) (damping_factor : ℚ)
    (current : Dict ℚ) (N : ℕ) : Option (Dict ℚ) := do
  let p ← pydiv (1 - damping_factor) (N : ℚ)
  let new : Dict ℚ := corpus.map (fun kv => (kv.1, p))
  corpus.foldlM (fun new pkv =>
    corpus.foldlM (fun new kv => do
      let new ← if kv.2 = [] then do
          let c ← dget current kv.1
          let t ← pydiv (damping_factor * c) (N : ℚ)
          addTo new pkv.1 t
        else pure new
      if pkv.1 ∈ kv.2 then do
          let c ← dget current kv.1
          let t ← pydiv (damping_factor * c) ((kv.2.length : ℚ))
          addTo new pkv.1 t
        else pure new) new) new

/-- Embedding of `has_not_converged(previous, current)`
(src/pagerank.py lines 136-138): sample one key of `previous` with the next
stream value `r` and compare the two ranks of that single page against
`TOLERANCE`. -/
def has_not_converged (previous current : Dict ℚ) (r : ℕ) : Option Bool := do
  let i ← pychoice (keysOf previous) r
  let c ← dget current i
  let p ← dget previous i
  pure (decide (|c - p| > TOLERANCE))

/-- The `while has_not_converged(initial, next)` loop of `iterate_pagerank`
(src/pagerank.py lines 129-133) with explicit fuel; `step` counts the loop
iterations so that each convergence test consumes one stream value. -/
def iterateAux (corpus : Dict (List String)) (damping_factor : ℚ) (N : ℕ)
    (stream : ℕ → ℕ) : ℕ → ℕ → Dict ℚ → Dict ℚ → Option (Dict ℚ)
  | 0, _, _, _ => none
  | fuel + 1, step, initial, next => do
    let b ← has_not_converged initial next (stream step)
    if b then do
      let next2 ← calculate_pr corpus damping_factor next N
      iterateAux corpus damping_factor N stream fuel (step + 1) next next2
    else pure next

/-- Embedding of `iterate_pagerank(corpus, damping_factor)`
(src/pagerank.py lines 112-133): `N = len(corpus)`, the (unused) division
`p = (1-damping_factor)/N`, the uniform `initial = {k: 1/N ...}`, one
relaxation producing `next`, then the convergence-test-driven loop. -/
def iterate_pagerank (corpus : Dict (List String)) (damping_factor : ℚ)
    (fuel : ℕ) (stream : ℕ → ℕ) : Option (Dict ℚ) := do
  let N := corpus.length
  let _p ← pydiv (1 - damping_factor) (N : ℚ)
  let u ← pydiv 1 (N : ℚ)
  let initial : Dict ℚ := corpus.map (fun kv => (kv.1, u))
  let next ← calculate_pr corpus damping_factor initial N
  iterateAux corpus damping_factor N stream fuel 0 initial next

/-- The deterministic sequence of iterates of the relaxation step, starting
from the uniform vector `initial` of `iterate_pagerank`.  The randomized
loop only chooses which element of this sequence is returned. -/
def prSeq (corpus : Dict (List String)) (damping_factor : ℚ) : ℕ → Option (Dict ℚ)
  | 0 => do
    let u ← pydiv 1 (corpus.length : ℚ)
    pure (corpus.map (fun kv => (kv.1, u)))
  | k + 1 => do
    let v ← prSeq corpus damping_factor k
    calculate_pr corpus damping_factor v corpus.length

/-- The contribution function of spec §4.3, written from the spec words:
`contribution(k, page) = current[k]/N` if `k` is a sink (no outbound
links), else `current[k]/|links(k)|` if `page ∈ links(k)`, else 0.  A
missing lookup defaults to 0; every claim using it supplies a rank vector
with one entry per page. -/
def contribution (current : Dict ℚ) (N : ℕ) (kv : String × List String)
    (page : String) : ℚ :=
  if kv.2 = [] then (dget current kv.1).getD 0 / N
  else if page ∈ kv.2 then (dget current kv.1).getD 0 / kv.2.length
  else 0

/-- The column weight of one corpus entry in the relaxation step:
`contribution current N kv page = weight N kv page * current[kv.1]`. -/
def weight (N : ℕ) (kv : String × List String) (page : String) : ℚ :=
  if kv.2 = [] then 1 / N
  else if page ∈ kv.2 then 1 / (kv.2.length : ℚ)
  else 0

/-- The sum of the values of a dict (`sum(d.values())`). -/
def valuesSum (m : Dict ℚ) : ℚ := (m.map Prod.snd).sum

/-- Total absolute difference of two rank vectors over a key list. -/
def l1dist (K : List String) (x y : Dict ℚ) : ℚ :=
  (K.map (fun q => |(dget x q).getD 0 - (dget y q).getD 0|)).sum

/-- Concrete corpus used by several counterexamples: two pages linking to
each other plus a third page linking into the cycle. -/
def cexCorpus : Dict (List String) := [("a", ["b"]), ("b", ["a"]), ("c", ["a"])]

/-- The first relaxation iterate of `cexCorpus` at damping 17/20. -/
def cexV1 : Dict ℚ := [("a", 37/60), ("b", 1/3), ("c", 1/20)]

/-- The second relaxation iterate of `cexCorpus` at damping 17/20. -/
def cexV2 : Dict ℚ := [("a", 451/1200), ("b", 689/1200), ("c", 1/20)]

/-- A corpus on which the relaxation oscillates forever at damping 1:
every page's rank changes by at least 1/6 at every step. -/
def oscCorpus : Dict (List String) := [("a", ["b", "c"]), ("b", ["a"]), ("c", ["a"])]

/-- The uniform starting vector for `oscCorpus`. -/
def oscV0 : Dict ℚ := [("a", 1/3), ("b", 1/3), ("c", 1/3)]

/-- The first relaxation iterate of `oscCorpus` at damping 1; the next
iterate is `oscV0` again. -/
def oscV1 : Dict ℚ := [("a", 2/3), ("b", 1/6), ("c", 1/6)]

section DictLemmas

variable {α : Type}

theorem keysOf_nil : keysOf ([] : Dict α) = [] := rfl

theorem keysOf_cons (kv : String × α) (m : Dict α) :
    keysOf (kv :: m) = kv.1 :: keysOf m := rfl

theorem dget_cons (kv : String × α) (m : Dict α) (q : String) :
    dget (kv :: m) q = if kv.1 = q then some kv.2 else dget m q := rfl

theorem dset_cons (kv : String × α) (m : Dict α) (k : String) (v : α) :
    dset (kv :: m) k v = (if kv.1 = k then (k, v) else kv) :: dset m k v := rfl

theorem dget_isSome_iff (m : Dict α) (q : String) :
    (dget m q).isSome ↔ q ∈ keysOf m := by
  induction m with
  | nil => simp [dget, keysOf]
  | cons kv rest ih =>
    rw [keysOf_cons, List.mem_cons, dget_cons]
    by_cases h : kv.1 = q
    · simp [h]
    · have h2 : ¬ q = kv.1 := fun he => h he.symm
      simp [h, h2, ih]

theorem dget_eq_none_of_not_mem {m : Dict α} {q : String} (h : q ∉ keysOf m) :
    dget m q = none := by
  have := (dget_isSome_iff m q).not.mpr h
  cases hq : dget m q with
  | none => rfl
  | some v => rw [hq] at this; simp at this

theorem dget_mem {m : Dict α} {q : String} {v : α} (h : dget m q = some v) :
    (q, v) ∈ m := by
  induction m with
  | nil => simp [dget] at h
  | cons kv rest ih =>
    by_cases hk : kv.1 = q
    · simp [dget, hk] at h
      subst hk h
      exact List.mem_cons_self _ _
    · simp [dget, hk] at h
      exact List.mem_cons_of_mem _ (ih h)

theorem mem_dget {m : Dict α} {q : String} {v : α}
    (hnd : (keysOf m).Nodup) (h : (q, v) ∈ m) : dget m q = some v := by
  induction m with
  | nil => simp at h
  | cons kv rest ih =>
    rw [keysOf_cons, List.nodup_cons] at hnd
    rcases List.mem_cons.mp h with h1 | h1
    · subst h1
      simp [dget]
    · have hne : kv.1 ≠ q := by
        intro he
        exact hnd.1 (he ▸ (List.mem_map_of_mem Prod.fst h1))
      simp [dget, hne]
      exact ih hnd.2 h1

theorem keysOf_dset (m : Dict α) (k : String) (v : α) :
    keysOf (dset m k v) = keysOf m := by
  induction m with
  | nil => rfl
  | cons kv rest ih =>
    by_cases h : kv.1 = k <;>
      simp [dset, keysOf, h] <;>
      simpa [dset, keysOf] using ih

theorem dget_dset_self {m : Dict α} {k : String} (v : α)
    (h : k ∈ keysOf m) : dget (dset m k v) k = some v := by
  induction m with
  | nil => simp [keysOf] at h
  | cons kv rest ih =>
    by_cases hk : kv.1 = k
    · simp [dset, hk, dget]
    · rw [keysOf_cons, List.mem_cons] at h
      rcases h with h | h
      · exact absurd h.symm hk
      · simp [dset, hk, dget]
        simpa [dset] using ih h

theorem dget_dset_ne {m : Dict α} {k q : String} (v : α) (h : q ≠ k) :
    dget (dset m k v) q = dget m q := by
  induction m with
  | nil => rfl
  | cons kv rest ih =>
    rw [dset_cons, dget_cons, dget_cons]
    by_cases hk : kv.1 = k
    · have hkq : ¬ k = q := fun he => h he.symm
      have hkvq : ¬ kv.1 = q := by rw [hk]; exact hkq
      rw [if_pos hk, if_neg hkvq]
      show (if k = q then some v else dget (dset rest k v) q) = _
      rw [if_neg hkq, ih]
    · rw [if_neg hk]
      by_cases hq : kv.1 = q
      · rw [if_pos hq, if_pos hq]
      · rw [if_neg hq, if_neg hq, ih]

theorem addTo_eq {m : Dict ℚ} {k : String} {v : ℚ} (x : ℚ)
    (h : dget m k = some v) : addTo m k x = some (dset m k (v + x)) := by
  simp [addTo, h]

theorem addTo_eq_none {m : Dict ℚ} {k : String} (x : ℚ)
    (h : dget m k = none) : addTo m k x = none := by
  simp [addTo, h]

theorem keysOf_map_pair (m : Dict α) (f : String × α → ℚ) :
    keysOf (m.map (fun kv => (kv.1, f kv))) = keysOf m := by
  induction m with
  | nil => rfl
  | cons kv rest ih => simp only [keysOf, List.map_cons] at ih ⊢; rw [ih]

theorem dget_map_const (m : Dict α) (c : ℚ) (q : String) :
    dget (m.map (fun kv => (kv.1, c))) q = (dget m q).map (fun _ => c) := by
  induction m with
  | nil => rfl
  | cons kv rest ih =>
    rw [List.map_cons, dget_cons, dget_cons]
    by_cases h : kv.1 = q
    · rw [if_pos h, if_pos h]
      rfl
    · rw [if_neg h, if_neg h, ih]

end DictLemmas

section SumLemmas

variable {α β : Type}

theorem sum_map_zero (l : List α) : (l.map (fun _ => (0 : ℚ))).sum = 0 := by
  induction l with
  | nil => rfl
  | cons a rest ih => simp [ih]

theorem sum_map_add (l : List α) (f g : α → ℚ) :
    (l.map (fun a => f a + g a)).sum = (l.map f).sum + (l.map g).sum := by
  induction l with
  | nil => simp
  | cons a rest ih => simp [ih]; ring

theorem sum_map_mul_left (l : List α) (c : ℚ) (f : α → ℚ) :
    (l.map (fun a => c * f a)).sum = c * (l.map f).sum := by
  induction l with
  | nil => simp
  | cons a rest ih => simp [ih]; ring

theorem sum_map_mul_right (l : List α) (c : ℚ) (f : α → ℚ) :
    (l.map (fun a => f a * c)).sum = (l.map f).sum * c := by
  induction l with
  | nil => simp
  | cons a rest ih => simp [ih]; ring

theorem sum_map_const (l : List α) (c : ℚ) :
    (l.map (fun _ => c)).sum = l.length * c := by
  induction l with
  | nil => simp
  | cons a rest ih => simp [ih]; ring

theorem sum_map_congr {l : List α} {f g : α → ℚ} (h : ∀ a ∈ l, f a = g a) :
    (l.map f).sum = (l.map g).sum := by
  induction l with
  | nil => rfl
  | cons a rest ih =>
    simp only [List.map_cons, List.sum_cons]
    rw [h a (List.mem_cons_self a rest), ih (fun b hb => h b (List.mem_cons_of_mem a hb))]

theorem sum_map_nonneg {l : List α} {f : α → ℚ} (h : ∀ a ∈ l, 0 ≤ f a) :
    0 ≤ (l.map f).sum := by
  induction l with
  | nil => simp
  | cons a rest ih =>
    simp only [List.map_cons, List.sum_cons]
    have h1 := h a (List.mem_cons_self a rest)
    have h2 := ih (fun b hb => h b (List.mem_cons_of_mem a hb))
    linarith

theorem sum_map_le {l : List α} {f g : α → ℚ} (h : ∀ a ∈ l, f a ≤ g a) :
    (l.map f).sum ≤ (l.map g).sum := by
  induction l with
  | nil => simp
  | cons a rest ih =>
    simp only [List.map_cons, List.sum_cons]
    have h1 := h a (List.mem_cons_self a rest)
    have h2 := ih (fun b hb => h b (List.mem_cons_of_mem a hb))
    linarith

theorem abs_sum_map_le (l : List α) (f : α → ℚ) :
    |(l.map f).sum| ≤ (l.map (fun a => |f a|)).sum := by
  induction l with
  | nil => simp
  | cons a rest ih =>
    simp only [List.map_cons, List.sum_cons]
    calc |f a + (rest.map f).sum| ≤ |f a| + |(rest.map f).sum| := abs_add _ _
      _ ≤ |f a| + (rest.map (fun a => |f a|)).sum := by linarith

theorem le_sum_map_of_mem {l : List α} {f : α → ℚ} (h : ∀ a ∈ l, 0 ≤ f a)
    {a : α} (ha : a ∈ l) : f a ≤ (l.map f).sum := by
  induction l with
  | nil => simp at ha
  | cons b rest ih =>
    simp only [List.map_cons, List.sum_cons]
    rcases List.mem_cons.mp ha with h1 | h1
    · subst h1
      have := sum_map_nonneg (fun c hc => h c (List.mem_cons_of_mem a hc))
      linarith
    · have hb := h b (List.mem_cons_self b rest)
      have := ih (fun c hc => h c (List.mem_cons_of_mem b hc)) h1
      linarith

theorem sum_map_comm (K : List α) (C : List β) (f : α → β → ℚ) :
    (K.map (fun a => (C.map (f a)).sum)).sum =
      (C.map (fun b => (K.map (fun a => f a b)).sum)).sum := by
  induction K with
  | nil => simp [sum_map_zero]
  | cons a rest ih =>
    simp only [List.map_cons, List.sum_cons, ih]
    rw [← sum_map_add]

theorem sum_map_ite_eq {K : List String} (hnd : K.Nodup) {a : String}
    (ha : a ∈ K) (c : ℚ) :
    (K.map (fun q => if a = q then c else 0)).sum = c := by
  induction K with
  | nil => simp at ha
  | cons b rest ih =>
    rw [List.nodup_cons] at hnd
    simp only [List.map_cons, List.sum_cons]
    rcases List.mem_cons.mp ha with h1 | h1
    · subst h1
      rw [if_pos rfl]
      have : ∀ q ∈ rest, (if a = q then c else 0) = 0 := by
        intro q hq
        rw [if_neg]
        intro he
        exact hnd.1 (he ▸ hq)
      rw [sum_map_congr this, sum_map_zero]
      ring
    · have hba : ¬ a = b := by
        intro he
        exact hnd.1 (he ▸ h1)
      rw [if_neg hba, ih hnd.2 h1]
      ring

theorem sum_map_count {K : List String} (hnd : K.Nodup) {L : List String}
    (hsub : ∀ x ∈ L, x ∈ K) :
    (K.map (fun q => ((L.count q : ℕ) : ℚ))).sum = L.length := by
  induction L with
  | nil => simp [sum_map_zero]
  | cons x rest ih =>
    have hx : x ∈ K := hsub x (List.mem_cons_self x rest)
    have hrest : ∀ y ∈ rest, y ∈ K := fun y hy => hsub y (List.mem_cons_of_mem x hy)
    have hpt : ∀ q ∈ K, (((x :: rest).count q : ℕ) : ℚ) =
        ((rest.count q : ℕ) : ℚ) + (if x = q then 1 else 0) := by
      intro q hq
      rcases eq_or_ne x q with he | he
      · subst he
        simp [List.count_cons]
      · simp [List.count_cons, he, Ne.symm he]
    rw [sum_map_congr hpt, sum_map_add, ih hrest, sum_map_ite_eq hnd hx,
      List.length_cons]
    push_cast
    ring

theorem sum_map_ite_mem {K : List String} (hK : K.Nodup) {L : List String}
    (hL : L.Nodup) (hsub : ∀ x ∈ L, x ∈ K) (c : ℚ) :
    (K.map (fun q => if q ∈ L then c else 0)).sum = L.length * c := by
  have hpt : ∀ q ∈ K, (if q ∈ L then c else 0) = ((L.count q : ℕ) : ℚ) * c := by
    intro q _
    by_cases hm : q ∈ L
    · rw [if_pos hm, List.count_eq_one_of_mem hL hm]
      simp
    · rw [if_neg hm, List.count_eq_zero_of_not_mem hm]
      simp
  rw [sum_map_congr hpt, sum_map_mul_right, sum_map_count hK hsub]

end SumLemmas

section DictSum

theorem keysOf_map_const {α : Type} (m : Dict α) (c : ℚ) :
    keysOf (m.map (fun kv => (kv.1, c))) = keysOf m := by
  induction m with
  | nil => rfl
  | cons kv rest ih => simp only [keysOf, List.map_cons] at ih ⊢; rw [ih]

theorem valuesSum_eq_sum {m : Dict ℚ} {K : List String} {f : String → ℚ}
    (hkeys : keysOf m = K) (hnd : K.Nodup)
    (hval : ∀ q ∈ K, dget m q = some (f q)) :
    valuesSum m = (K.map f).sum := by
  induction m generalizing K with
  | nil => rw [← hkeys]; rfl
  | cons kv rest ih =>
    rw [keysOf_cons] at hkeys
    subst hkeys
    rw [List.nodup_cons] at hnd
    have hv0 : kv.2 = f kv.1 := by
      have := hval kv.1 (List.mem_cons_self _ _)
      rw [dget_cons, if_pos rfl] at this
      exact Option.some.inj this
    have hrest : ∀ q ∈ keysOf rest, dget rest q = some (f q) := by
      intro q hq
      have hne : ¬ kv.1 = q := by
        intro he
        exact hnd.1 (he ▸ hq)
      have := hval q (List.mem_cons_of_mem _ hq)
      rw [dget_cons, if_neg hne] at this
      exact this
    have := ih rfl hnd.2 hrest
    simp only [valuesSum, List.map_cons, List.sum_cons] at this ⊢
    rw [hv0, this]

theorem entry_val_eq {m : Dict ℚ} {f : String → ℚ} (hnd : (keysOf m).Nodup)
    (hval : ∀ q ∈ keysOf m, dget m q = some (f q)) :
    ∀ kv ∈ m, kv.2 = f kv.1 := by
  intro kv hm
  have hk : kv.1 ∈ keysOf m := List.mem_map_of_mem Prod.fst hm
  have h1 : dget m kv.1 = some kv.2 := mem_dget hnd hm
  have h2 := hval kv.1 hk
  rw [h1] at h2
  exact Option.some.inj h2

end DictSum

section FoldLemmas

variable {γ σ : Type}

theorem foldlM_option_append (l1 l2 : List γ) (f : σ → γ → Option σ) (b : σ) :
    (l1 ++ l2).foldlM f b = (l1.foldlM f b).bind (fun b2 => l2.foldlM f b2) := by
  induction l1 generalizing b with
  | nil => simp [List.foldlM]
  | cons a rest ih =>
    simp only [List.cons_append, List.foldlM_cons]
    cases f b a with
    | none => simp
    | some b2 => simp [ih]

theorem foldlM_skip {l : Dict (List String)} {page : String}
    {body : Dict ℚ → String × List String → Option (Dict ℚ)}
    (hb : ∀ tm kv, kv.1 ≠ page → body tm kv = pure tm)
    (h : ∀ kv ∈ l, kv.1 ≠ page) (tm : Dict ℚ) :
    l.foldlM body tm = pure tm := by
  induction l generalizing tm with
  | nil => rfl
  | cons kv rest ih =>
    rw [List.foldlM_cons, hb tm kv (h kv (List.mem_cons_self _ _))]
    show rest.foldlM body tm = pure tm
    exact ih (fun kv2 h2 => h kv2 (List.mem_cons_of_mem _ h2)) tm

theorem foldl_dset_all {l : Dict (List String)} (u : ℚ) :
    ∀ tm : Dict ℚ, (∀ kv ∈ l, kv.1 ∈ keysOf tm) →
      keysOf (l.foldl (fun tm2 kv2 => dset tm2 kv2.1 u) tm) = keysOf tm ∧
      ∀ q, dget (l.foldl (fun tm2 kv2 => dset tm2 kv2.1 u) tm) q =
        if q ∈ keysOf l then some u else dget tm q := by
  induction l with
  | nil =>
    intro tm _
    exact ⟨rfl, fun q => by simp [keysOf]⟩
  | cons kv rest ih =>
    intro tm hmem
    rw [List.foldl_cons]
    have hk : kv.1 ∈ keysOf tm := hmem kv (List.mem_cons_self _ _)
    have hmem2 : ∀ kv2 ∈ rest, kv2.1 ∈ keysOf (dset tm kv.1 u) := by
      intro kv2 h2
      rw [keysOf_dset]
      exact hmem kv2 (List.mem_cons_of_mem _ h2)
    obtain ⟨hkeys, hval⟩ := ih (dset tm kv.1 u) hmem2
    refine ⟨by rw [hkeys, keysOf_dset], fun q => ?_⟩
    rw [hval q, keysOf_cons]
    by_cases hq : q ∈ keysOf rest
    · rw [if_pos hq, if_pos (List.mem_cons_of_mem _ hq)]
    · by_cases hq2 : q = kv.1
      · rw [if_neg hq, if_pos (by rw [hq2]; exact List.mem_cons_self _ _)]
        subst hq2
        exact dget_dset_self u hk
      · rw [if_neg hq, if_neg (by
          intro hmm
          rcases List.mem_cons.mp hmm with h2 | h2
          · exact hq2 h2
          · exact hq h2)]
        exact dget_dset_ne u hq2

theorem foldlM_addTo {L : List String} (x : ℚ) :
    ∀ tm : Dict ℚ, (∀ link ∈ L, link ∈ keysOf tm) →
      ∃ tm2, L.foldlM (fun t link => addTo t link x) tm = some tm2 ∧
        keysOf tm2 = keysOf tm ∧
        ∀ q, dget tm2 q = (dget tm q).map (fun v => v + (L.count q : ℚ) * x) := by
  induction L with
  | nil =>
    intro tm _
    refine ⟨tm, rfl, rfl, fun q => ?_⟩
    cases h : dget tm q with
    | none => rfl
    | some v => simp
  | cons link rest ih =>
    intro tm hmem
    have hk : link ∈ keysOf tm := hmem link (List.mem_cons_self _ _)
    obtain ⟨v, hv⟩ := Option.isSome_iff_exists.mp ((dget_isSome_iff tm link).mpr hk)
    rw [List.foldlM_cons, addTo_eq x hv]
    have hmem2 : ∀ l2 ∈ rest, l2 ∈ keysOf (dset tm link (v + x)) := by
      intro l2 h2
      rw [keysOf_dset]
      exact hmem l2 (List.mem_cons_of_mem _ h2)
    obtain ⟨tm2, hfold, hkeys, hval⟩ := ih (dset tm link (v + x)) hmem2
    refine ⟨tm2, ?_, by rw [hkeys, keysOf_dset], fun q => ?_⟩
    · show rest.foldlM (fun t l2 => addTo t l2 x) (dset tm link (v + x)) = some tm2
      exact hfold
    · rw [hval q]
      by_cases hq : q = link
      · subst hq
        rw [dget_dset_self (v + x) hk, hv]
        have : (q :: rest).count q = rest.count q + 1 := by
          simp [List.count_cons]
        rw [this]
        show some (v + x + ((rest.count q : ℕ) : ℚ) * x) = some (v + ((rest.count q + 1 : ℕ) : ℚ) * x)
        congr 1
        push_cast
        ring
      · rw [dget_dset_ne (v + x) hq]
        have : (link :: rest).count q = rest.count q := by
          simp [List.count_cons, hq]
        rw [this]

end FoldLemmas

section TransitionModel

theorem keysOf_append {α : Type} (l1 l2 : Dict α) :
    keysOf (l1 ++ l2) = keysOf l1 ++ keysOf l2 := by
  simp [keysOf]

theorem dget_split {α : Type} {m : Dict α} {k : String} {v : α}
    (h : dget m k = some v) :
    ∃ pre post, m = pre ++ (k, v) :: post ∧ ∀ kv ∈ pre, kv.1 ≠ k := by
  induction m with
  | nil => simp [dget] at h
  | cons kv rest ih =>
    rw [dget_cons] at h
    by_cases hk : kv.1 = k
    · rw [if_pos hk] at h
      have h2 : kv = (k, v) := by
        obtain ⟨a, b⟩ := kv
        simp only at hk
        subst hk
        cases Option.some.inj h
        rfl
      refine ⟨[], rest, by rw [h2]; rfl, by simp⟩
    · rw [if_neg hk] at h
      obtain ⟨pre, post, heq, hpre⟩ := ih h
      refine ⟨kv :: pre, post, by rw [List.cons_append, heq], ?_⟩
      intro kv2 h2
      rcases List.mem_cons.mp h2 with h3 | h3
      · subst h3
        exact hk
      · exact hpre kv2 h3

theorem transition_model_spec {corpus : Dict (List String)} {page : String}
    {L : List String} (d : ℚ)
    (hnd : (keysOf corpus).Nodup)
    (hpage : dget corpus page = some L)
    (hsub : ∀ x ∈ L, x ∈ keysOf corpus) :
    ∃ tm, transition_model corpus page d = some tm ∧
      keysOf tm = keysOf corpus ∧
      ∀ q, dget tm q = (dget corpus q).map (fun _ =>
        if L = [] then 1 / (corpus.length : ℚ)
        else (1 - d) / (corpus.length : ℚ) + (L.count q : ℚ) * (d / (L.length : ℚ))) := by
  have hmem : page ∈ keysOf corpus := by
    rw [← dget_isSome_iff, hpage]
    rfl
  have hne : corpus ≠ [] := by
    intro h
    subst h
    simp [keysOf] at hmem
  have hN : ((corpus.length : ℕ) : ℚ) ≠ 0 := by
    have := List.length_pos.mpr hne
    exact_mod_cast Nat.pos_iff_ne_zero.mp this
  have hp : pydiv (1 - d) ((corpus.length : ℕ) : ℚ) =
      some ((1 - d) / ((corpus.length : ℕ) : ℚ)) := by
    simp [pydiv, hN]
  obtain ⟨pre, post, heq, hpre⟩ := dget_split hpage
  have hpost : ∀ kv ∈ post, kv.1 ≠ page := by
    intro kv hm he
    have h0 : (keysOf (pre ++ (page, L) :: post)).Nodup := heq ▸ hnd
    simp only [keysOf_append, keysOf_cons] at h0
    have h2 : (page :: keysOf post).Nodup := h0.of_append_right
    rw [List.nodup_cons] at h2
    exact h2.1 (he ▸ List.mem_map_of_mem Prod.fst hm)
  set N : ℚ := ((corpus.length : ℕ) : ℚ) with hNdef
  set p : ℚ := (1 - d) / N with hpdef
  set tm0 : Dict ℚ := corpus.map (fun kv => (kv.1, p)) with htm0
  have htm0keys : keysOf tm0 = keysOf corpus := keysOf_map_const corpus p
  have htm0get : ∀ q, dget tm0 q = (dget corpus q).map (fun _ => p) :=
    fun q => dget_map_const corpus p q
  set body : Dict ℚ → String × List String → Option (Dict ℚ) := fun tm kv =>
    if kv.1 = page then
      if kv.2 = [] then do
        let u ← pydiv 1 N
        pure (corpus.foldl (fun tm2 kv2 => dset tm2 kv2.1 u) tm)
      else
        kv.2.foldlM (fun tm2 link => do
          let q ← pydiv d ((L.length : ℕ) : ℚ)
          addTo tm2 link q) tm
    else pure tm with hbody
  have hunfold : transition_model corpus page d = corpus.foldlM body tm0 := by
    simp only [transition_model, hpage, hp, Option.bind_eq_bind, Option.some_bind,
      hbody, htm0]
  have hskip : ∀ tm kv, kv.1 ≠ page → body tm kv = pure tm := by
    intro tm kv h
    simp only [hbody, if_neg h]
  have hchain : corpus.foldlM body tm0 = ((page, L) :: post).foldlM body tm0 := by
    rw [show corpus.foldlM body tm0 = (pre ++ (page, L) :: post).foldlM body tm0 from
      by rw [← heq]]
    rw [foldlM_option_append, foldlM_skip hskip hpre tm0]
    rfl
  by_cases hL : L = []
  · subst hL
    have hu : pydiv 1 N = some (1 / N) := by simp [pydiv, hN]
    set tm1 := corpus.foldl (fun tm2 kv2 => dset tm2 kv2.1 (1 / N)) tm0 with htm1
    have hb : body tm0 (page, ([] : List String)) = some tm1 := by
      simp only [hbody, if_pos rfl]
      simp only [hu, Option.bind_eq_bind, Option.some_bind]
      rfl
    have hfinal : transition_model corpus page d = some tm1 := by
      rw [hunfold, hchain, List.foldlM_cons, hb]
      show post.foldlM body tm1 = some tm1
      rw [foldlM_skip hskip hpost tm1]
      rfl
    obtain ⟨hkeys1, hval1⟩ := foldl_dset_all (1 / N)
      tm0 (by
        intro kv hm
        rw [htm0keys]
        exact List.mem_map_of_mem Prod.fst hm)
    refine ⟨tm1, hfinal, by rw [← htm1] at hkeys1; rw [hkeys1, htm0keys], fun q => ?_⟩
    rw [← htm1] at hval1
    rw [hval1 q]
    simp only [if_pos rfl]
    by_cases hq : q ∈ keysOf corpus
    · rw [if_pos hq]
      obtain ⟨v, hv⟩ := Option.isSome_iff_exists.mp ((dget_isSome_iff corpus q).mpr hq)
      rw [hv]
      rfl
    · rw [if_neg hq, htm0get q, dget_eq_none_of_not_mem hq]
      rfl
  · have hLn : ((L.length : ℕ) : ℚ) ≠ 0 := by
      have : 0 < L.length := List.length_pos.mpr hL
      exact_mod_cast Nat.pos_iff_ne_zero.mp this
    have hdiv : pydiv d ((L.length : ℕ) : ℚ) = some (d / ((L.length : ℕ) : ℚ)) := by
      simp [pydiv, hLn]
    have hb : body tm0 (page, L) = L.foldlM
        (fun tm2 link => addTo tm2 link (d / ((L.length : ℕ) : ℚ))) tm0 := by
      simp only [hbody, if_pos rfl, if_neg hL, hdiv, Option.bind_eq_bind,
        Option.some_bind]
    obtain ⟨tm1, hfold, hkeys1, hval1⟩ := foldlM_addTo (d / ((L.length : ℕ) : ℚ))
      tm0 (by
        intro link hm
        rw [htm0keys]
        exact hsub link hm)
    have hfinal : transition_model corpus page d = some tm1 := by
      rw [hunfold, hchain, List.foldlM_cons, hb, hfold]
      show post.foldlM body tm1 = some tm1
      rw [foldlM_skip hskip hpost tm1]
      rfl
    refine ⟨tm1, hfinal, by rw [hkeys1, htm0keys], fun q => ?_⟩
    rw [hval1 q, htm0get q]
    simp only [if_neg hL, Option.map_map]
    rfl

end TransitionModel

section Sampling

/-- The LinkGraph invariant of the spec data model (§3): distinct pages, and
each link set duplicate-free (a Python set) and contained in the corpus. -/
def WellFormed (corpus : Dict (List String)) : Prop :=
  (keysOf corpus).Nodup ∧ ∀ kv ∈ corpus, kv.2.Nodup ∧ ∀ x ∈ kv.2, x ∈ keysOf corpus

theorem get?_some_mem {α : Type} {l : List α} {n : ℕ} {x : α}
    (h : l.get? n = some x) : x ∈ l := by
  induction l generalizing n with
  | nil => simp [List.get?] at h
  | cons a rest ih =>
    cases n with
    | zero =>
      simp only [List.get?] at h
      rw [Option.some.inj h]
      exact List.mem_cons_self _ _
    | succ m => exact List.mem_cons_of_mem _ (ih h)

theorem get?_exists_of_lt {α : Type} {l : List α} {n : ℕ} (h : n < l.length) :
    ∃ x, l.get? n = some x := by
  induction l generalizing n with
  | nil => simp at h
  | cons a rest ih =>
    cases n with
    | zero => exact ⟨a, rfl⟩
    | succ m => exact ih (Nat.succ_lt_succ_iff.mp h)

theorem pychoice_spec {l : List String} (h : l ≠ []) (r : ℕ) :
    ∃ x, pychoice l r = some x ∧ x ∈ l := by
  have hlen : 0 < l.length := List.length_pos.mpr h
  have hmod : r % l.length < l.length := Nat.mod_lt r hlen
  obtain ⟨x, hx⟩ := get?_exists_of_lt hmod
  exact ⟨x, hx, get?_some_mem hx⟩

theorem pychoice_nil (r : ℕ) : pychoice [] r = none := rfl

theorem transition_model_total {corpus : Dict (List String)} {page : String}
    (d : ℚ) (hwf : WellFormed corpus) (hpage : page ∈ keysOf corpus) :
    ∃ tm, transition_model corpus page d = some tm ∧ keysOf tm = keysOf corpus := by
  obtain ⟨L, hL⟩ := Option.isSome_iff_exists.mp ((dget_isSome_iff corpus page).mpr hpage)
  have hsub : ∀ x ∈ L, x ∈ keysOf corpus := (hwf.2 (page, L) (dget_mem hL)).2
  obtain ⟨tm, h1, h2, _⟩ := transition_model_spec d hwf.1 hL hsub
  exact ⟨tm, h1, h2⟩

theorem sampleWalk_spec {corpus : Dict (List String)} (d : ℚ) (stream : ℕ → ℕ)
    (hwf : WellFormed corpus) (hne : corpus ≠ []) :
    ∀ (count i : ℕ) (samples : List String) (page : String),
      page ∈ keysOf corpus →
      (∀ s ∈ samples, s ∈ keysOf corpus) →
      ∃ res : List String × String,
        sampleWalk corpus d stream count i samples page = some res ∧
        res.1.length = samples.length + count ∧
        (∀ s ∈ res.1, s ∈ keysOf corpus) := by
  intro count
  induction count with
  | zero =>
    intro i samples page _ hs
    exact ⟨(samples, page), rfl, by simp, hs⟩
  | succ m ih =>
    intro i samples page hpage hs
    obtain ⟨tm, htm, hkeys⟩ := transition_model_total d hwf hpage
    have hkne : keysOf tm ≠ [] := by
      rw [hkeys]
      intro hcon
      exact hne (List.map_eq_nil_iff.mp hcon)
    obtain ⟨next, hnext, hmem⟩ := pychoice_spec hkne (stream (i + 1))
    have hmem2 : next ∈ keysOf corpus := hkeys ▸ hmem
    have hsamp2 : ∀ s ∈ samples ++ [next], s ∈ keysOf corpus := by
      intro s hsm
      rcases List.mem_append.mp hsm with h1 | h1
      · exact hs s h1
      · rw [List.mem_singleton.mp h1]
        exact hmem2
    obtain ⟨res, hres, hlen, hresmem⟩ := ih (i + 1) (samples ++ [next]) next hmem2 hsamp2
    refine ⟨res, ?_, by rw [hlen]; simp; ring, hresmem⟩
    show (transition_model corpus page d).bind _ = some res
    rw [htm]
    show (pychoice (keysOf tm) (stream (i + 1))).bind _ = some res
    rw [hnext]
    exact hres

theorem mapM_pr (corpus : Dict (List String)) (samples : List String) {n : ℤ}
    (hn : ((n : ℤ) : ℚ) ≠ 0) :
    corpus.mapM (fun kv => do
      let v ← pydiv (samples.count kv.1 : ℚ) ((n : ℤ) : ℚ)
      pure (kv.1, v)) =
    some (corpus.map (fun kv =>
      (kv.1, ((samples.count kv.1 : ℕ) : ℚ) / ((n : ℤ) : ℚ)))) := by
  induction corpus with
  | nil => rfl
  | cons kv rest ih =>
    rw [List.mapM_cons]
    have hd : pydiv (samples.count kv.1 : ℚ) ((n : ℤ) : ℚ) =
        some (((samples.count kv.1 : ℕ) : ℚ) / ((n : ℤ) : ℚ)) := by
      simp [pydiv, hn]
    simp only [Option.bind_eq_bind, Option.pure_def] at ih ⊢
    simp only [hd, Option.some_bind]
    rw [ih]
    rfl

theorem sample_pagerank_nonpos {corpus : Dict (List String)} (d : ℚ) (n : ℤ)
    (hn : n ≤ 0) (stream : ℕ → ℕ) {start : String}
    (hstart : pychoice (keysOf corpus) (stream 0) = some start) :
    sample_pagerank corpus d n stream = corpus.mapM (fun kv => do
      let v ← pydiv ((([] : List String).count kv.1 : ℕ) : ℚ) ((n : ℤ) : ℚ)
      pure (kv.1, v)) := by
  have htn : n.toNat = 0 := Int.toNat_of_nonpos hn
  simp only [sample_pagerank, hstart, htn, Option.bind_eq_bind, Option.some_bind]
  rfl

theorem mapM_pr_none {corpus : Dict (List String)} (hne : corpus ≠ [])
    (samples : List String) {n : ℤ} (hn : ((n : ℤ) : ℚ) = 0) :
    corpus.mapM (fun kv => do
      let v ← pydiv ((samples.count kv.1 : ℕ) : ℚ) ((n : ℤ) : ℚ)
      pure (kv.1, v)) = none := by
  cases corpus with
  | nil => exact absurd rfl hne
  | cons kv rest =>
    rw [List.mapM_cons]
    have hdiv : pydiv ((samples.count kv.1 : ℕ) : ℚ) ((n : ℤ) : ℚ) = none := by
      simp [pydiv, hn]
    simp only [Option.bind_eq_bind, Option.pure_def, hdiv, Option.none_bind]

theorem dget_map_fn {α : Type} (m : Dict α) (f : String → ℚ) (q : String) :
    dget (m.map (fun kv => (kv.1, f kv.1))) q = (dget m q).map (fun _ => f q) := by
  induction m with
  | nil => rfl
  | cons kv rest ih =>
    rw [List.map_cons, dget_cons, dget_cons]
    by_cases h : kv.1 = q
    · rw [if_pos h, if_pos h, h]
      rfl
    · rw [if_neg h, if_neg h, ih]

theorem keysOf_map_fn {α : Type} (m : Dict α) (f : String → ℚ) :
    keysOf (m.map (fun kv => (kv.1, f kv.1))) = keysOf m := by
  induction m with
  | nil => rfl
  | cons kv rest ih => simp only [keysOf, List.map_cons] at ih ⊢; rw [ih]

end Sampling

section CalculatePr

theorem inner_fold_spec {current : Dict ℚ} (d : ℚ) (N : ℕ) (pg : String)
    (hN : ((N : ℕ) : ℚ) ≠ 0) :
    ∀ (l : List (String × List String)), (∀ kv ∈ l, kv.1 ∈ keysOf current) →
    ∀ new : Dict ℚ, pg ∈ keysOf new →
    ∃ new2, l.foldlM (fun new kv => do
        let new ← if kv.2 = [] then do
            let c ← dget current kv.1
            let t ← pydiv (d * c) ((N : ℕ) : ℚ)
            addTo new pg t
          else pure new
        if pg ∈ kv.2 then do
            let c ← dget current kv.1
            let t ← pydiv (d * c) ((kv.2.length : ℚ))
            addTo new pg t
          else pure new) new = some new2 ∧
      keysOf new2 = keysOf new ∧
      (∀ q, q ≠ pg → dget new2 q = dget new q) ∧
      dget new2 pg = (dget new pg).map
        (fun v => v + (l.map (fun kv => d * contribution current N kv pg)).sum) := by
  intro l
  induction l with
  | nil =>
    intro _ new hpg
    obtain ⟨v, hv⟩ := Option.isSome_iff_exists.mp ((dget_isSome_iff new pg).mpr hpg)
    refine ⟨new, rfl, rfl, fun q _ => rfl, ?_⟩
    rw [hv]
    simp
  | cons kv rest ih =>
    intro hcur new hpg
    obtain ⟨v, hv⟩ := Option.isSome_iff_exists.mp ((dget_isSome_iff new pg).mpr hpg)
    obtain ⟨c, hc⟩ := Option.isSome_iff_exists.mp
      ((dget_isSome_iff current kv.1).mpr (hcur kv (List.mem_cons_self _ _)))
    have hstep : ∃ new1, (do
        let new ← if kv.2 = [] then do
            let c ← dget current kv.1
            let t ← pydiv (d * c) ((N : ℕ) : ℚ)
            addTo new pg t
          else pure new
        if pg ∈ kv.2 then do
            let c ← dget current kv.1
            let t ← pydiv (d * c) ((kv.2.length : ℚ))
            addTo new pg t
          else pure new) = some new1 ∧
        keysOf new1 = keysOf new ∧
        (∀ q, q ≠ pg → dget new1 q = dget new q) ∧
        dget new1 pg = some (v + d * contribution current N kv pg) := by
      by_cases hsink : kv.2 = []
      · have hdN : pydiv (d * c) ((N : ℕ) : ℚ) = some (d * c / ((N : ℕ) : ℚ)) := by
          simp [pydiv, hN]
        refine ⟨dset new pg (v + d * c / ((N : ℕ) : ℚ)), ?_, keysOf_dset new pg _,
          fun q hq => dget_dset_ne _ hq, ?_⟩
        · simp only [if_pos hsink, hc, hdN, addTo_eq _ hv, Option.bind_eq_bind,
            Option.some_bind]
          rw [if_neg (by rw [hsink]; exact List.not_mem_nil pg)]
          rfl
        · rw [dget_dset_self _ hpg]
          have : contribution current N kv pg = c / ((N : ℕ) : ℚ) := by
            simp [contribution, hsink, hc]
          rw [this]
          congr 1
          ring
      · by_cases hmm : pg ∈ kv.2
        · have hlen : ((kv.2.length : ℕ) : ℚ) ≠ 0 := by
            have : 0 < kv.2.length := List.length_pos.mpr hsink
            exact_mod_cast Nat.pos_iff_ne_zero.mp this
          have hdL : pydiv (d * c) ((kv.2.length : ℕ) : ℚ) =
              some (d * c / ((kv.2.length : ℕ) : ℚ)) := by
            simp [pydiv, hlen]
          refine ⟨dset new pg (v + d * c / ((kv.2.length : ℕ) : ℚ)), ?_,
            keysOf_dset new pg _, fun q hq => dget_dset_ne _ hq, ?_⟩
          · rw [if_neg hsink]
            simp only [Option.bind_eq_bind, Option.some_bind]
            simp only [if_pos hmm, hc, hdL, Option.bind_eq_bind, Option.some_bind]
            exact addTo_eq _ hv
          · rw [dget_dset_self _ hpg]
            have : contribution current N kv pg = c / ((kv.2.length : ℕ) : ℚ) := by
              simp [contribution, hsink, hmm, hc]
            rw [this]
            congr 1
            ring
        · refine ⟨new, ?_, rfl, fun _ _ => rfl, ?_⟩
          · rw [if_neg hsink]
            simp [hmm]
          · rw [hv]
            have : contribution current N kv pg = 0 := by
              simp [contribution, hsink, hmm]
            rw [this]
            congr 1
            ring
    obtain ⟨new1, hbody, hkeys1, hother1, hpg1⟩ := hstep
    have hpg1mem : pg ∈ keysOf new1 := by rw [hkeys1]; exact hpg
    obtain ⟨new2, hfold, hkeys2, hother2, hpg2⟩ :=
      ih (fun kv2 h2 => hcur kv2 (List.mem_cons_of_mem _ h2)) new1 hpg1mem
    refine ⟨new2, ?_, by rw [hkeys2, hkeys1], ?_, ?_⟩
    · rw [List.foldlM_cons, hbody]
      exact hfold
    · intro q hq
      rw [hother2 q hq, hother1 q hq]
    · rw [hpg2, hpg1, hv]
      simp only [List.map_cons, List.sum_cons, Option.map]
      congr 1
      ring

theorem outer_fold_spec {corpus : Dict (List String)} {current : Dict ℚ}
    (d : ℚ) (N : ℕ) (hN : ((N : ℕ) : ℚ) ≠ 0)
    (hcur : ∀ kv ∈ corpus, kv.1 ∈ keysOf current) :
    ∀ (l : List (String × List String)), (keysOf l).Nodup →
    ∀ new : Dict ℚ, (∀ pkv ∈ l, pkv.1 ∈ keysOf new) →
    ∃ new2, l.foldlM (fun new pkv => corpus.foldlM (fun new kv => do
        let new ← if kv.2 = [] then do
            let c ← dget current kv.1
            let t ← pydiv (d * c) ((N : ℕ) : ℚ)
            addTo new pkv.1 t
          else pure new
        if pkv.1 ∈ kv.2 then do
            let c ← dget current kv.1
            let t ← pydiv (d * c) ((kv.2.length : ℚ))
            addTo new pkv.1 t
          else pure new) new) new = some new2 ∧
      keysOf new2 = keysOf new ∧
      (∀ q, q ∉ keysOf l → dget new2 q = dget new q) ∧
      (∀ q, q ∈ keysOf l → dget new2 q = (dget new q).map
        (fun v => v + (corpus.map (fun kv => d * contribution current N kv q)).sum)) := by
  intro l
  induction l with
  | nil =>
    intro _ new _
    exact ⟨new, rfl, rfl, fun _ _ => rfl, fun q hq => by simp [keysOf] at hq⟩
  | cons pkv rest ih =>
    intro hnd new hmem
    rw [keysOf_cons, List.nodup_cons] at hnd
    have hpg : pkv.1 ∈ keysOf new := hmem pkv (List.mem_cons_self _ _)
    obtain ⟨new1, hinner, hkeys1, hother1, hpg1⟩ :=
      inner_fold_spec d N pkv.1 hN corpus hcur new hpg
    have hmem1 : ∀ pkv2 ∈ rest, pkv2.1 ∈ keysOf new1 := by
      intro pkv2 h2
      rw [hkeys1]
      exact hmem pkv2 (List.mem_cons_of_mem _ h2)
    obtain ⟨new2, hfold, hkeys2, hother2, hval2⟩ := ih hnd.2 new1 hmem1
    refine ⟨new2, ?_, by rw [hkeys2, hkeys1], ?_, ?_⟩
    · rw [List.foldlM_cons, hinner]
      exact hfold
    · intro q hq
      rw [keysOf_cons, List.mem_cons] at hq
      push_neg at hq
      rw [hother2 q (fun h2 => hq.2 h2), hother1 q hq.1]
    · intro q hq
      rw [keysOf_cons, List.mem_cons] at hq
      rcases hq with hq | hq
      · subst hq
        rw [hother2 pkv.1 hnd.1, hpg1]
      · have hne : q ≠ pkv.1 := by
          intro he
          exact hnd.1 (he ▸ hq)
        rw [hval2 q hq, hother1 q hne]

theorem calculate_pr_spec {corpus : Dict (List String)} {current : Dict ℚ} (d : ℚ)
    (hnd : (keysOf corpus).Nodup) (hne : corpus ≠ [])
    (hcur : ∀ kv ∈ corpus, kv.1 ∈ keysOf current) :
    ∃ new, calculate_pr corpus d current corpus.length = some new ∧
      keysOf new = keysOf corpus ∧
      ∀ q ∈ keysOf corpus, dget new q = some ((1 - d) / (corpus.length : ℚ) +
        (corpus.map (fun kv => d * contribution current corpus.length kv q)).sum) := by
  have hN : ((corpus.length : ℕ) : ℚ) ≠ 0 := by
    have := List.length_pos.mpr hne
    exact_mod_cast Nat.pos_iff_ne_zero.mp this
  have hp : pydiv (1 - d) ((corpus.length : ℕ) : ℚ) =
      some ((1 - d) / ((corpus.length : ℕ) : ℚ)) := by
    simp [pydiv, hN]
  set p : ℚ := (1 - d) / ((corpus.length : ℕ) : ℚ) with hpdef
  set new0 : Dict ℚ := corpus.map (fun kv => (kv.1, p)) with hnew0
  have hmem0 : ∀ pkv ∈ corpus, pkv.1 ∈ keysOf new0 := by
    intro pkv hm
    rw [keysOf_map_const]
    exact List.mem_map_of_mem Prod.fst hm
  obtain ⟨new2, hfold, hkeys2, _, hval2⟩ :=
    outer_fold_spec d corpus.length hN hcur corpus hnd new0 hmem0
  refine ⟨new2, ?_, by rw [hkeys2, keysOf_map_const], fun q hq => ?_⟩
  · simp only [calculate_pr, hp, Option.bind_eq_bind, Option.some_bind]
    exact hfold
  · rw [hval2 q hq, dget_map_const]
    obtain ⟨L, hL⟩ := Option.isSome_iff_exists.mp ((dget_isSome_iff corpus q).mpr hq)
    rw [hL]
    rfl

theorem contribution_eq_weight (current : Dict ℚ) (N : ℕ)
    (kv : String × List String) (page : String) :
    contribution current N kv page = weight N kv page * (dget current kv.1).getD 0 := by
  unfold contribution weight
  split_ifs <;> ring

theorem weight_nonneg (N : ℕ) (kv : String × List String) (page : String) :
    0 ≤ weight N kv page := by
  unfold weight
  split_ifs
  · positivity
  · positivity
  · exact le_refl 0


theorem weight_colsum {corpus : Dict (List String)}
    (hnd : (keysOf corpus).Nodup) (hne : corpus ≠ [])
    {kv : String × List String} (hkv2nd : kv.2.Nodup)
    (hkv2sub : ∀ x ∈ kv.2, x ∈ keysOf corpus) :
    ((keysOf corpus).map (fun q => weight corpus.length kv q)).sum = 1 := by
  have hN : ((corpus.length : ℕ) : ℚ) ≠ 0 := by
    have := List.length_pos.mpr hne
    exact_mod_cast Nat.pos_iff_ne_zero.mp this
  by_cases hsink : kv.2 = []
  · have hpt : ∀ q ∈ keysOf corpus, weight corpus.length kv q =
        1 / ((corpus.length : ℕ) : ℚ) := by
      intro q _
      simp [weight, hsink]
    rw [sum_map_congr hpt, sum_map_const]
    rw [show (keysOf corpus).length = corpus.length from List.length_map _ _]
    field_simp
  · have hlen : ((kv.2.length : ℕ) : ℚ) ≠ 0 := by
      have : 0 < kv.2.length := List.length_pos.mpr hsink
      exact_mod_cast Nat.pos_iff_ne_zero.mp this
    have hpt : ∀ q ∈ keysOf corpus, weight corpus.length kv q =
        (if q ∈ kv.2 then 1 / ((kv.2.length : ℕ) : ℚ) else 0) := by
      intro q _
      simp [weight, hsink]
    rw [sum_map_congr hpt, sum_map_ite_mem hnd hkv2nd hkv2sub]
    field_simp

theorem sum_map_sub {α : Type} (l : List α) (f g : α → ℚ) :
    (l.map (fun a => f a - g a)).sum = (l.map f).sum - (l.map g).sum := by
  induction l with
  | nil => simp
  | cons a rest ih => simp [ih]; ring

theorem sum_over_keys {α : Type} (corpus : Dict α) (f : String → ℚ) :
    (corpus.map (fun kv => f kv.1)).sum = ((keysOf corpus).map f).sum := by
  rw [keysOf, List.map_map]
  rfl

theorem valuesSum_eq_sum_getD {m : Dict ℚ} (hnd : (keysOf m).Nodup) :
    valuesSum m = ((keysOf m).map (fun q => (dget m q).getD 0)).sum := by
  refine valuesSum_eq_sum rfl hnd ?_
  intro q hq
  obtain ⟨v, hv⟩ := Option.isSome_iff_exists.mp ((dget_isSome_iff m q).mpr hq)
  rw [hv]
  rfl

theorem calculate_pr_sum {corpus : Dict (List String)} {current : Dict ℚ} (d : ℚ)
    (hwf : WellFormed corpus) (hne : corpus ≠ [])
    (hkeys : keysOf current = keysOf corpus)
    (hsum : valuesSum current = 1) :
    ∃ new, calculate_pr corpus d current corpus.length = some new ∧
      keysOf new = keysOf corpus ∧ valuesSum new = 1 := by
  have hnd := hwf.1
  have hN : ((corpus.length : ℕ) : ℚ) ≠ 0 := by
    have := List.length_pos.mpr hne
    exact_mod_cast Nat.pos_iff_ne_zero.mp this
  have hcur : ∀ kv ∈ corpus, kv.1 ∈ keysOf current := by
    intro kv hm
    rw [hkeys]
    exact List.mem_map_of_mem Prod.fst hm
  obtain ⟨new, hnew, hknew, hval⟩ := calculate_pr_spec d hnd hne hcur
  refine ⟨new, hnew, hknew, ?_⟩
  have h1 : valuesSum new = ((keysOf corpus).map (fun q =>
      (1 - d) / ((corpus.length : ℕ) : ℚ) +
      (corpus.map (fun kv => d * contribution current corpus.length kv q)).sum)).sum :=
    valuesSum_eq_sum hknew hnd hval
  rw [h1, sum_map_add, sum_map_const, sum_map_comm]
  have hinner : ∀ kv ∈ corpus,
      ((keysOf corpus).map
        (fun q => d * contribution current corpus.length kv q)).sum =
      d * (dget current kv.1).getD 0 := by
    intro kv hm
    have hpt : ∀ q ∈ keysOf corpus,
        d * contribution current corpus.length kv q =
        (d * (dget current kv.1).getD 0) * weight corpus.length kv q := by
      intro q _
      rw [contribution_eq_weight]
      ring
    rw [sum_map_congr hpt, sum_map_mul_left,
      weight_colsum hnd hne (hwf.2 kv hm).1 (hwf.2 kv hm).2]
    ring
  rw [sum_map_congr hinner, sum_map_mul_left, sum_over_keys corpus
    (fun q => (dget current q).getD 0)]
  have h2 : ((keysOf corpus).map (fun q => (dget current q).getD 0)).sum = 1 := by
    have hndc : (keysOf current).Nodup := by rw [hkeys]; exact hnd
    rw [← hkeys, ← valuesSum_eq_sum_getD hndc, hsum]
  have hlen : (keysOf corpus).length = corpus.length := List.length_map _ _
  rw [h2, hlen]
  field_simp

theorem calculate_pr_contraction {corpus : Dict (List String)} {x y : Dict ℚ}
    {nx ny : Dict ℚ} (d : ℚ) (hd : 0 ≤ d)
    (hwf : WellFormed corpus) (hne : corpus ≠ [])
    (hx : keysOf x = keysOf corpus) (hy : keysOf y = keysOf corpus)
    (hnx : calculate_pr corpus d x corpus.length = some nx)
    (hny : calculate_pr corpus d y corpus.length = some ny) :
    l1dist (keysOf corpus) nx ny ≤ d * l1dist (keysOf corpus) x y := by
  have hnd := hwf.1
  have hcx : ∀ kv ∈ corpus, kv.1 ∈ keysOf x := by
    intro kv hm
    rw [hx]
    exact List.mem_map_of_mem Prod.fst hm
  have hcy : ∀ kv ∈ corpus, kv.1 ∈ keysOf y := by
    intro kv hm
    rw [hy]
    exact List.mem_map_of_mem Prod.fst hm
  obtain ⟨nx2, hnx2, _, hvalx⟩ := calculate_pr_spec d hnd hne hcx
  obtain ⟨ny2, hny2, _, hvaly⟩ := calculate_pr_spec d hnd hne hcy
  have hex : nx = nx2 := Option.some.inj (hnx.symm.trans hnx2)
  have hey : ny = ny2 := Option.some.inj (hny.symm.trans hny2)
  subst hex
  subst hey
  have hpt : ∀ q ∈ keysOf corpus,
      |(dget nx q).getD 0 - (dget ny q).getD 0| ≤
      (corpus.map (fun kv => d * (weight corpus.length kv q *
        |(dget x kv.1).getD 0 - (dget y kv.1).getD 0|))).sum := by
    intro q hq
    rw [hvalx q hq, hvaly q hq]
    have e1 : (some ((1 - d) / ((corpus.length : ℕ) : ℚ) +
        (corpus.map (fun kv => d * contribution x corpus.length kv q)).sum)).getD 0 -
        (some ((1 - d) / ((corpus.length : ℕ) : ℚ) +
        (corpus.map (fun kv => d * contribution y corpus.length kv q)).sum)).getD 0 =
        (corpus.map (fun kv => d * contribution x corpus.length kv q -
          d * contribution y corpus.length kv q)).sum := by
      rw [sum_map_sub]
      show (1 - d) / ((corpus.length : ℕ) : ℚ) + _ - ((1 - d) / ((corpus.length : ℕ) : ℚ) + _) = _
      ring
    rw [e1]
    calc |(corpus.map (fun kv => d * contribution x corpus.length kv q -
          d * contribution y corpus.length kv q)).sum|
        ≤ (corpus.map (fun kv => |d * contribution x corpus.length kv q -
          d * contribution y corpus.length kv q|)).sum := abs_sum_map_le _ _
      _ = (corpus.map (fun kv => d * (weight corpus.length kv q *
          |(dget x kv.1).getD 0 - (dget y kv.1).getD 0|))).sum := by
          refine sum_map_congr ?_
          intro kv _
          rw [contribution_eq_weight, contribution_eq_weight]
          rw [show d * (weight corpus.length kv q * (dget x kv.1).getD 0) -
            d * (weight corpus.length kv q * (dget y kv.1).getD 0) =
            (d * weight corpus.length kv q) *
              ((dget x kv.1).getD 0 - (dget y kv.1).getD 0) from by ring]
          rw [abs_mul]
          rw [abs_of_nonneg (mul_nonneg hd (weight_nonneg _ _ _))]
          ring
  have hstep1 : l1dist (keysOf corpus) nx ny ≤
      ((keysOf corpus).map (fun q => (corpus.map (fun kv =>
        d * (weight corpus.length kv q *
        |(dget x kv.1).getD 0 - (dget y kv.1).getD 0|))).sum)).sum :=
    sum_map_le hpt
  have hswap : ((keysOf corpus).map (fun q => (corpus.map (fun kv =>
        d * (weight corpus.length kv q *
        |(dget x kv.1).getD 0 - (dget y kv.1).getD 0|))).sum)).sum =
      (corpus.map (fun kv => ((keysOf corpus).map (fun q =>
        d * (weight corpus.length kv q *
        |(dget x kv.1).getD 0 - (dget y kv.1).getD 0|))).sum)).sum :=
    sum_map_comm (keysOf corpus) corpus _
  have hinner : ∀ kv ∈ corpus, ((keysOf corpus).map (fun q =>
      d * (weight corpus.length kv q *
      |(dget x kv.1).getD 0 - (dget y kv.1).getD 0|))).sum =
      d * |(dget x kv.1).getD 0 - (dget y kv.1).getD 0| := by
    intro kv hm
    have hpt2 : ∀ q ∈ keysOf corpus,
        d * (weight corpus.length kv q *
          |(dget x kv.1).getD 0 - (dget y kv.1).getD 0|) =
        (d * |(dget x kv.1).getD 0 - (dget y kv.1).getD 0|) *
          weight corpus.length kv q := by
      intro q _
      ring
    rw [sum_map_congr hpt2, sum_map_mul_left,
      weight_colsum hnd hne (hwf.2 kv hm).1 (hwf.2 kv hm).2]
    ring
  calc l1dist (keysOf corpus) nx ny
      ≤ _ := hstep1
    _ = _ := hswap
    _ = (corpus.map (fun kv =>
        d * |(dget x kv.1).getD 0 - (dget y kv.1).getD 0|)).sum :=
        sum_map_congr hinner
    _ = d * (corpus.map (fun kv =>
        |(dget x kv.1).getD 0 - (dget y kv.1).getD 0|)).sum :=
        sum_map_mul_left _ _ _
    _ = d * l1dist (keysOf corpus) x y := by
        rw [sum_over_keys corpus (fun q => |(dget x q).getD 0 - (dget y q).getD 0|)]
        rfl

end CalculatePr

section Iterate

theorem has_not_converged_spec {previous current : Dict ℚ} (r : ℕ)
    (hne : previous ≠ []) (hkeys : keysOf current = keysOf previous) :
    ∃ pg c p, pychoice (keysOf previous) r = some pg ∧ pg ∈ keysOf previous ∧
      dget current pg = some c ∧ dget previous pg = some p ∧
      has_not_converged previous current r = some (decide (|c - p| > TOLERANCE)) := by
  have hkne : keysOf previous ≠ [] := fun h => hne (List.map_eq_nil_iff.mp h)
  obtain ⟨pg, hpg, hmem⟩ := pychoice_spec hkne r
  obtain ⟨p, hp⟩ := Option.isSome_iff_exists.mp ((dget_isSome_iff previous pg).mpr hmem)
  have hmemc : pg ∈ keysOf current := by rw [hkeys]; exact hmem
  obtain ⟨c, hc⟩ := Option.isSome_iff_exists.mp ((dget_isSome_iff current pg).mpr hmemc)
  refine ⟨pg, c, p, hpg, hmem, hc, hp, ?_⟩
  simp only [has_not_converged, hpg, hc, hp, Option.bind_eq_bind, Option.some_bind,
    Option.pure_def]

theorem prSeq_zero {corpus : Dict (List String)} (d : ℚ) (hne : corpus ≠ []) :
    prSeq corpus d 0 = some (corpus.map (fun kv => (kv.1, 1 / ((corpus.length : ℕ) : ℚ)))) := by
  have hN : ((corpus.length : ℕ) : ℚ) ≠ 0 := by
    have := List.length_pos.mpr hne
    exact_mod_cast Nat.pos_iff_ne_zero.mp this
  have hu : pydiv 1 ((corpus.length : ℕ) : ℚ) = some (1 / ((corpus.length : ℕ) : ℚ)) := by
    simp [pydiv, hN]
  simp only [prSeq, hu, Option.bind_eq_bind, Option.some_bind, Option.pure_def]

theorem prSeq_spec {corpus : Dict (List String)} (d : ℚ)
    (hwf : WellFormed corpus) (hne : corpus ≠ []) :
    ∀ k, ∃ v, prSeq corpus d k = some v ∧ keysOf v = keysOf corpus := by
  intro k
  induction k with
  | zero =>
    refine ⟨_, prSeq_zero d hne, keysOf_map_const _ _⟩
  | succ m ih =>
    obtain ⟨v, hv, hkv⟩ := ih
    have hcur : ∀ kv ∈ corpus, kv.1 ∈ keysOf v := by
      intro kv hm
      rw [hkv]
      exact List.mem_map_of_mem Prod.fst hm
    obtain ⟨new, hnew, hknew, _⟩ := calculate_pr_spec d hwf.1 hne hcur
    refine ⟨new, ?_, hknew⟩
    simp only [prSeq, hv, Option.bind_eq_bind, Option.some_bind]
    exact hnew

theorem prSeq_succ_calc {corpus : Dict (List String)} {d : ℚ} {k : ℕ}
    {v w : Dict ℚ} (hv : prSeq corpus d k = some v)
    (hw : calculate_pr corpus d v corpus.length = some w) :
    prSeq corpus d (k + 1) = some w := by
  simp only [prSeq, hv, Option.bind_eq_bind, Option.some_bind]
  exact hw

theorem iterate_pagerank_eq {corpus : Dict (List String)} (d : ℚ)
    (fuel : ℕ) (stream : ℕ → ℕ) (hne : corpus ≠ []) {v1 : Dict ℚ}
    (h1 : prSeq corpus d 1 = some v1) :
    iterate_pagerank corpus d fuel stream = iterateAux corpus d corpus.length stream
      fuel 0 (corpus.map (fun kv => (kv.1, 1 / ((corpus.length : ℕ) : ℚ)))) v1 := by
  have hN : ((corpus.length : ℕ) : ℚ) ≠ 0 := by
    have := List.length_pos.mpr hne
    exact_mod_cast Nat.pos_iff_ne_zero.mp this
  have hp : pydiv (1 - d) ((corpus.length : ℕ) : ℚ) =
      some ((1 - d) / ((corpus.length : ℕ) : ℚ)) := by
    simp [pydiv, hN]
  have hu : pydiv 1 ((corpus.length : ℕ) : ℚ) = some (1 / ((corpus.length : ℕ) : ℚ)) := by
    simp [pydiv, hN]
  have hcalc : calculate_pr corpus d
      (corpus.map (fun kv => (kv.1, 1 / ((corpus.length : ℕ) : ℚ)))) corpus.length =
      some v1 := by
    have h0 : prSeq corpus d 0 =
        some (corpus.map (fun kv => (kv.1, 1 / ((corpus.length : ℕ) : ℚ)))) :=
      prSeq_zero d hne
    have h1b : (prSeq corpus d 0).bind
        (fun v => calculate_pr corpus d v corpus.length) = some v1 := h1
    rw [h0] at h1b
    simp only [Option.some_bind] at h1b
    exact h1b
  simp only [iterate_pagerank, hp, hu, hcalc, Option.bind_eq_bind, Option.some_bind]

theorem iterateAux_mem_prSeq {corpus : Dict (List String)} {d : ℚ}
    {stream : ℕ → ℕ} :
    ∀ (fuel j step : ℕ) (prev next r : Dict ℚ),
      prSeq corpus d j = some prev → prSeq corpus d (j + 1) = some next →
      iterateAux corpus d corpus.length stream fuel step prev next = some r →
      ∃ k, 1 ≤ k ∧ prSeq corpus d k = some r := by
  intro fuel
  induction fuel with
  | zero =>
    intro j step prev next r _ _ h
    simp [iterateAux] at h
  | succ m ih =>
    intro j step prev next r hj hj1 h
    rw [iterateAux] at h
    cases hb : has_not_converged prev next (stream step) with
    | none =>
      rw [hb] at h
      simp at h
    | some b =>
      rw [hb] at h
      simp only [Option.bind_eq_bind, Option.some_bind] at h
      cases b with
      | false =>
        simp only [if_false, Bool.false_eq_true, Option.pure_def] at h
        exact ⟨j + 1, Nat.succ_le_succ (Nat.zero_le j), h ▸ hj1⟩
      | true =>
        simp only [if_true, Option.bind_eq_bind] at h
        cases hc : calculate_pr corpus d next corpus.length with
        | none =>
          rw [hc] at h
          simp at h
        | some next2 =>
          rw [hc] at h
          simp only [Option.some_bind] at h
          exact ih (j + 1) (step + 1) next next2 r hj1 (prSeq_succ_calc hj1 hc) h

theorem iterate_pagerank_mem_prSeq {corpus : Dict (List String)} {d : ℚ}
    {fuel : ℕ} {stream : ℕ → ℕ} {r : Dict ℚ}
    (h : iterate_pagerank corpus d fuel stream = some r) :
    ∃ k, 1 ≤ k ∧ prSeq corpus d k = some r := by
  rw [iterate_pagerank] at h
  cases hp : pydiv (1 - d) ((corpus.length : ℕ) : ℚ) with
  | none =>
    rw [hp] at h
    simp at h
  | some p0 =>
    rw [hp] at h
    simp only [Option.bind_eq_bind, Option.some_bind] at h
    cases hu : pydiv 1 ((corpus.length : ℕ) : ℚ) with
    | none =>
      rw [hu] at h
      simp at h
    | some u =>
      rw [hu] at h
      simp only [Option.some_bind] at h
      cases hc : calculate_pr corpus d (corpus.map (fun kv => (kv.1, u)))
          corpus.length with
      | none =>
        rw [hc] at h
        simp at h
      | some next =>
        rw [hc] at h
        simp only [Option.some_bind] at h
        have h0 : prSeq corpus d 0 = some (corpus.map (fun kv => (kv.1, u))) := by
          simp only [prSeq, hu, Option.bind_eq_bind, Option.some_bind, Option.pure_def]
        exact iterateAux_mem_prSeq fuel 0 0 _ next r h0 (prSeq_succ_calc h0 hc) h

theorem l1dist_nonneg (K : List String) (x y : Dict ℚ) : 0 ≤ l1dist K x y :=
  sum_map_nonneg (fun _ _ => abs_nonneg _)

theorem entry_le_l1dist {K : List String} {q : String} (hq : q ∈ K) (x y : Dict ℚ) :
    |(dget x q).getD 0 - (dget y q).getD 0| ≤ l1dist K x y :=
  le_sum_map_of_mem (fun _ _ => abs_nonneg _) hq

theorem prSeq_decay {corpus : Dict (List String)} {d : ℚ} (hd : 0 ≤ d)
    (hwf : WellFormed corpus) (hne : corpus ≠ [])
    {v0 v1 : Dict ℚ} (h0 : prSeq corpus d 0 = some v0)
    (h1 : prSeq corpus d 1 = some v1) :
    ∀ k, ∀ {vk vk1 : Dict ℚ}, prSeq corpus d k = some vk →
      prSeq corpus d (k + 1) = some vk1 →
      l1dist (keysOf corpus) vk1 vk ≤ d ^ k * l1dist (keysOf corpus) v1 v0 := by
  intro k
  induction k with
  | zero =>
    intro vk vk1 hk hk1
    have e0 : vk = v0 := Option.some.inj (hk.symm.trans h0)
    have e1 : vk1 = v1 := Option.some.inj (hk1.symm.trans h1)
    subst e0
    subst e1
    rw [pow_zero, one_mul]
  | succ m ih =>
    intro vk vk1 hk hk1
    obtain ⟨vm, hvm, hkm⟩ := prSeq_spec d hwf hne m
    obtain ⟨vk0, hvk0, hkk⟩ := prSeq_spec d hwf hne (m + 1)
    have e : vk0 = vk := Option.some.inj (hvk0.symm.trans hk)
    subst e
    have hcalc1 : calculate_pr corpus d vm corpus.length = some vk0 := by
      have hb : (prSeq corpus d m).bind
          (fun v => calculate_pr corpus d v corpus.length) = some vk0 := hk
      rw [hvm] at hb
      simpa using hb
    have hcalc2 : calculate_pr corpus d vk0 corpus.length = some vk1 := by
      have hb : (prSeq corpus d (m + 1)).bind
          (fun v => calculate_pr corpus d v corpus.length) = some vk1 := hk1
      rw [hk] at hb
      simpa using hb
    calc l1dist (keysOf corpus) vk1 vk0
        ≤ d * l1dist (keysOf corpus) vk0 vm :=
          calculate_pr_contraction d hd hwf hne hkk hkm hcalc2 hcalc1
      _ ≤ d * (d ^ m * l1dist (keysOf corpus) v1 v0) :=
          mul_le_mul_of_nonneg_left (ih hvm hk) hd
      _ = d ^ (m + 1) * l1dist (keysOf corpus) v1 v0 := by ring

theorem exists_tol_step {corpus : Dict (List String)} {d : ℚ}
    (hd0 : 0 ≤ d) (hd1 : d < 1)
    (hwf : WellFormed corpus) (hne : corpus ≠ []) :
    ∃ (K : ℕ) (vK vK1 : Dict ℚ), prSeq corpus d K = some vK ∧
      prSeq corpus d (K + 1) = some vK1 ∧
      ∀ q ∈ keysOf corpus,
        |(dget vK1 q).getD 0 - (dget vK q).getD 0| ≤ TOLERANCE := by
  obtain ⟨v0, h0, _⟩ := prSeq_spec d hwf hne 0
  obtain ⟨v1, h1, _⟩ := prSeq_spec d hwf hne 1
  have hBnn : 0 ≤ l1dist (keysOf corpus) v1 v0 := l1dist_nonneg _ _ _
  have hK : ∃ K : ℕ, d ^ K * l1dist (keysOf corpus) v1 v0 ≤ TOLERANCE := by
    by_cases hBT : l1dist (keysOf corpus) v1 v0 ≤ TOLERANCE
    · exact ⟨0, by rw [pow_zero, one_mul]; exact hBT⟩
    · push_neg at hBT
      have hTpos : (0 : ℚ) < TOLERANCE := by norm_num [TOLERANCE]
      have hBpos : 0 < l1dist (keysOf corpus) v1 v0 := lt_trans hTpos hBT
      obtain ⟨K, hKlt⟩ := exists_pow_lt_of_lt_one
        (div_pos hTpos hBpos) hd1
      exact ⟨K, le_of_lt ((lt_div_iff₀ hBpos).mp hKlt)⟩
  obtain ⟨K, hK⟩ := hK
  obtain ⟨vK, hvK, _⟩ := prSeq_spec d hwf hne K
  obtain ⟨vK1, hvK1, _⟩ := prSeq_spec d hwf hne (K + 1)
  have hdist : l1dist (keysOf corpus) vK1 vK ≤
      d ^ K * l1dist (keysOf corpus) v1 v0 :=
    prSeq_decay hd0 hwf hne h0 h1 K hvK hvK1
  refine ⟨K, vK, vK1, hvK, hvK1, fun q hq => ?_⟩
  have h2 := entry_le_l1dist hq vK1 vK
  linarith

theorem iterateAux_terminates {corpus : Dict (List String)} {d : ℚ}
    {stream : ℕ → ℕ} (hwf : WellFormed corpus) (hne : corpus ≠ []) :
    ∀ (m j step : ℕ) (vj vj1 vm vm1 : Dict ℚ),
      prSeq corpus d j = some vj → prSeq corpus d (j + 1) = some vj1 →
      prSeq corpus d (j + m) = some vm → prSeq corpus d (j + m + 1) = some vm1 →
      (∀ q ∈ keysOf corpus,
        |(dget vm1 q).getD 0 - (dget vm q).getD 0| ≤ TOLERANCE) →
      (iterateAux corpus d corpus.length stream (m + 1) step vj vj1).isSome := by
  intro m
  induction m with
  | zero =>
    intro j step vj vj1 vm vm1 hj hj1 hm hm1 hconv
    rw [Nat.add_zero] at hm
    have e0 : vm = vj := Option.some.inj (hm.symm.trans hj)
    have e1 : vm1 = vj1 := by
      rw [Nat.add_zero] at hm1
      exact Option.some.inj (hm1.symm.trans hj1)
    rw [e0, e1] at hconv
    have hkvj : keysOf vj = keysOf corpus := by
      obtain ⟨v, hv, hk⟩ := prSeq_spec d hwf hne j
      rw [Option.some.inj (hv.symm.trans hj)] at hk
      exact hk
    have hkvj1 : keysOf vj1 = keysOf corpus := by
      obtain ⟨v, hv, hk⟩ := prSeq_spec d hwf hne (j + 1)
      rw [Option.some.inj (hv.symm.trans hj1)] at hk
      exact hk
    have hvjne : vj ≠ [] := by
      intro hcon
      rw [hcon] at hkvj
      exact hne (List.map_eq_nil_iff.mp hkvj.symm)
    obtain ⟨pg, c, p, hpg, hmem, hc, hp, hnc⟩ := has_not_converged_spec
      (stream step) hvjne (hkvj1.trans hkvj.symm)
    have hb : decide (|c - p| > TOLERANCE) = false := by
      rw [decide_eq_false_iff_not]
      push_neg
      have hq := hconv pg (hkvj ▸ hmem)
      rw [hc, hp] at hq
      simpa using hq
    have hunf : iterateAux corpus d corpus.length stream (0 + 1) step vj vj1 =
        (has_not_converged vj vj1 (stream step)).bind (fun b =>
          if b then (calculate_pr corpus d vj1 corpus.length).bind
            (fun next2 => iterateAux corpus d corpus.length stream 0 (step + 1) vj1 next2)
          else pure vj1) := rfl
    rw [hunf, hnc, hb]
    simp
  | succ mm ih =>
    intro j step vj vj1 vm vm1 hj hj1 hm hm1 hconv
    have hkvj : keysOf vj = keysOf corpus := by
      obtain ⟨v, hv, hk⟩ := prSeq_spec d hwf hne j
      rw [Option.some.inj (hv.symm.trans hj)] at hk
      exact hk
    have hkvj1 : keysOf vj1 = keysOf corpus := by
      obtain ⟨v, hv, hk⟩ := prSeq_spec d hwf hne (j + 1)
      rw [Option.some.inj (hv.symm.trans hj1)] at hk
      exact hk
    have hvjne : vj ≠ [] := by
      intro hcon
      rw [hcon] at hkvj
      exact hne (List.map_eq_nil_iff.mp hkvj.symm)
    obtain ⟨pg, c, p, hpg, hmem, hc, hp, hnc⟩ := has_not_converged_spec
      (stream step) hvjne (hkvj1.trans hkvj.symm)
    obtain ⟨vj2, hvj2, _⟩ := prSeq_spec d hwf hne (j + 2)
    have hcalc : calculate_pr corpus d vj1 corpus.length = some vj2 := by
      have hb2 : (prSeq corpus d (j + 1)).bind
          (fun v => calculate_pr corpus d v corpus.length) = some vj2 := hvj2
      rw [hj1] at hb2
      simpa using hb2
    have hunf : iterateAux corpus d corpus.length stream (mm + 1 + 1) step vj vj1 =
        (has_not_converged vj vj1 (stream step)).bind (fun b =>
          if b then (calculate_pr corpus d vj1 corpus.length).bind
            (fun next2 =>
              iterateAux corpus d corpus.length stream (mm + 1) (step + 1) vj1 next2)
          else pure vj1) := rfl
    rw [hunf, hnc]
    cases hbb : decide (|c - p| > TOLERANCE) with
    | false =>
      simp
    | true =>
      simp only [Option.some_bind]
      rw [if_pos trivial, hcalc]
      simp only [Option.some_bind]
      have hm2 : prSeq corpus d (j + 1 + mm) = some vm := by
        rw [show j + 1 + mm = j + (mm + 1) from by omega]
        exact hm
      have hm3 : prSeq corpus d (j + 1 + mm + 1) = some vm1 := by
        rw [show j + 1 + mm + 1 = j + (mm + 1) + 1 from by omega]
        exact hm1
      exact ih (j + 1) (step + 1) vj1 vj2 vm vm1 hj1
        (prSeq_succ_calc hj1 hcalc) hm2 hm3 hconv

theorem iterate_pagerank_terminates {corpus : Dict (List String)} {d : ℚ}
    (hwf : WellFormed corpus) (hne : corpus ≠ [])
    (hd0 : 0 ≤ d) (hd1 : d < 1) :
    ∃ fuel, ∀ stream, (iterate_pagerank corpus d fuel stream).isSome := by
  obtain ⟨K, vK, vK1, hvK, hvK1, hconv⟩ := exists_tol_step hd0 hd1 hwf hne
  obtain ⟨v1, h1, _⟩ := prSeq_spec d hwf hne 1
  refine ⟨K + 1, fun stream => ?_⟩
  rw [iterate_pagerank_eq d (K + 1) stream hne h1]
  have h0 : prSeq corpus d 0 =
      some (corpus.map (fun kv => (kv.1, 1 / ((corpus.length : ℕ) : ℚ)))) :=
    prSeq_zero d hne
  have hmK : prSeq corpus d (0 + K) = some vK := by rw [Nat.zero_add]; exact hvK
  have hmK1 : prSeq corpus d (0 + K + 1) = some vK1 := by rw [Nat.zero_add]; exact hvK1
  exact iterateAux_terminates hwf hne K 0 0 _ v1 vK vK1 h0 h1 hmK hmK1 hconv

end Iterate

section Oscillation

theorem osc_calc_01 : calculate_pr oscCorpus 1 oscV0 3 = some oscV1 := by
  with_unfolding_all decide

theorem osc_calc_10 : calculate_pr oscCorpus 1 oscV1 3 = some oscV0 := by
  with_unfolding_all decide

theorem osc_check_01 (r : ℕ) : has_not_converged oscV0 oscV1 r = some true := by
  have h3 : r % 3 = 0 ∨ r % 3 = 1 ∨ r % 3 = 2 := by omega
  have hunf : has_not_converged oscV0 oscV1 r =
      (["a", "b", "c"].get? (r % 3)).bind (fun i =>
        (dget oscV1 i).bind (fun c => (dget oscV0 i).bind (fun p =>
          pure (decide (|c - p| > TOLERANCE))))) := rfl
  rw [hunf]
  rcases h3 with h | h | h <;> rw [h] <;> with_unfolding_all decide

theorem osc_check_10 (r : ℕ) : has_not_converged oscV1 oscV0 r = some true := by
  have h3 : r % 3 = 0 ∨ r % 3 = 1 ∨ r % 3 = 2 := by omega
  have hunf : has_not_converged oscV1 oscV0 r =
      (["a", "b", "c"].get? (r % 3)).bind (fun i =>
        (dget oscV0 i).bind (fun c => (dget oscV1 i).bind (fun p =>
          pure (decide (|c - p| > TOLERANCE))))) := rfl
  rw [hunf]
  rcases h3 with h | h | h <;> rw [h] <;> with_unfolding_all decide

theorem osc_aux_none : ∀ (fuel step : ℕ) (stream : ℕ → ℕ),
    iterateAux oscCorpus 1 3 stream fuel step oscV0 oscV1 = none ∧
    iterateAux oscCorpus 1 3 stream fuel step oscV1 oscV0 = none := by
  intro fuel
  induction fuel with
  | zero => intro step stream; exact ⟨rfl, rfl⟩
  | succ m ih =>
    intro step stream
    constructor
    · have hunf : iterateAux oscCorpus 1 3 stream (m + 1) step oscV0 oscV1 =
          (has_not_converged oscV0 oscV1 (stream step)).bind (fun b =>
            if b then (calculate_pr oscCorpus 1 oscV1 3).bind
              (fun next2 => iterateAux oscCorpus 1 3 stream m (step + 1) oscV1 next2)
            else pure oscV1) := rfl
      rw [hunf, osc_check_01, Option.some_bind, if_pos rfl, osc_calc_10,
        Option.some_bind]
      exact (ih (step + 1) stream).2
    · have hunf : iterateAux oscCorpus 1 3 stream (m + 1) step oscV1 oscV0 =
          (has_not_converged oscV1 oscV0 (stream step)).bind (fun b =>
            if b then (calculate_pr oscCorpus 1 oscV0 3).bind
              (fun next2 => iterateAux oscCorpus 1 3 stream m (step + 1) oscV0 next2)
            else pure oscV0) := rfl
      rw [hunf, osc_check_10, Option.some_bind, if_pos rfl, osc_calc_01,
        Option.some_bind]
      exact (ih (step + 1) stream).1

theorem osc_iterate_none (fuel : ℕ) (stream : ℕ → ℕ) :
    iterate_pagerank oscCorpus 1 fuel stream = none := by
  have hne : oscCorpus ≠ [] := by with_unfolding_all decide
  have h1 : prSeq oscCorpus 1 1 = some oscV1 := by with_unfolding_all decide
  rw [iterate_pagerank_eq 1 fuel stream hne h1]
  have e0 : oscCorpus.map
      (fun kv => (kv.1, 1 / ((oscCorpus.length : ℕ) : ℚ))) = oscV0 := by
    with_unfolding_all decide
  rw [e0]
  have e1 : oscCorpus.length = 3 := rfl
  rw [e1]
  exact (osc_aux_none fuel 0 stream).1

end Oscillation

section MassConservation

theorem prSeq_mass {corpus : Dict (List String)} {d : ℚ}
    (hwf : WellFormed corpus) (hne : corpus ≠ []) :
    ∀ k, ∀ v : Dict ℚ, prSeq corpus d k = some v → valuesSum v = 1 := by
  intro k
  induction k with
  | zero =>
    intro v hv
    rw [prSeq_zero d hne] at hv
    have he := Option.some.inj hv
    subst he
    have hN : ((corpus.length : ℕ) : ℚ) ≠ 0 := by
      have := List.length_pos.mpr hne
      exact_mod_cast Nat.pos_iff_ne_zero.mp this
    have hval : ∀ q ∈ keysOf corpus, dget (corpus.map
        (fun kv => (kv.1, 1 / ((corpus.length : ℕ) : ℚ)))) q =
        some (1 / ((corpus.length : ℕ) : ℚ)) := by
      intro q hq
      rw [dget_map_const]
      obtain ⟨w, hw⟩ := Option.isSome_iff_exists.mp ((dget_isSome_iff corpus q).mpr hq)
      rw [hw]
      rfl
    rw [valuesSum_eq_sum (keysOf_map_const corpus _) hwf.1 hval, sum_map_const]
    have hlen : (keysOf corpus).length = corpus.length := List.length_map _ _
    rw [hlen]
    field_simp
  | succ m ih =>
    intro v hv
    obtain ⟨vm, hvm, hkm⟩ := prSeq_spec d hwf hne m
    have hcalc : calculate_pr corpus d vm corpus.length = some v := by
      have hb : (prSeq corpus d m).bind
          (fun w => calculate_pr corpus d w corpus.length) = some v := hv
      rw [hvm] at hb
      simpa using hb
    obtain ⟨new, hnew, _, hsum⟩ := calculate_pr_sum d hwf hne hkm (ih vm hvm)
    rw [Option.some.inj (hcalc.symm.trans hnew)]
    exact hsum

end MassConservation

section Claims

/-- C1: for every non-empty LinkGraph, every page that is a key of the graph,
and every damping factor in [0,1], `transition_model` returns: if the page's
link set `L` is empty, the uniform distribution `1/N` over all pages of the
corpus; otherwise the distribution giving every page the base probability
`(1 - damping)/N`, with each linked page additionally receiving
`damping/|L|` on top of its base probability. -/
theorem C1_transition_model_formula {corpus : Dict (List String)} {page : String}
    {L : List String} {d : ℚ}
    (hwf : WellFormed corpus) (hne : corpus ≠ [])
    (hd : 0 ≤ d ∧ d ≤ 1)
    (hpage : dget corpus page = some L) :
    ∃ tm, transition_model corpus page d = some tm ∧
      keysOf tm = keysOf corpus ∧
      (L = [] → ∀ q ∈ keysOf corpus,
        dget tm q = some (1 / ((corpus.length : ℕ) : ℚ))) ∧
      (L ≠ [] → ∀ q ∈ keysOf corpus,
        dget tm q = some ((1 - d) / ((corpus.length : ℕ) : ℚ) +
          if q ∈ L then d / ((L.length : ℕ) : ℚ) else 0)) := by
  have hLprops := hwf.2 (page, L) (dget_mem hpage)
  obtain ⟨tm, h1, h2, h3⟩ := transition_model_spec d hwf.1 hpage hLprops.2
  refine ⟨tm, h1, h2, ?_, ?_⟩
  · intro hL q hq
    rw [h3 q]
    obtain ⟨v, hv⟩ := Option.isSome_iff_exists.mp ((dget_isSome_iff corpus q).mpr hq)
    rw [hv]
    simp [hL]
  · intro hL q hq
    rw [h3 q]
    obtain ⟨v, hv⟩ := Option.isSome_iff_exists.mp ((dget_isSome_iff corpus q).mpr hq)
    rw [hv]
    have hred : Option.map (fun _ : List String =>
        if L = [] then 1 / ((corpus.length : ℕ) : ℚ)
        else (1 - d) / ((corpus.length : ℕ) : ℚ) +
          ((L.count q : ℕ) : ℚ) * (d / ((L.length : ℕ) : ℚ))) (some v) =
        some (if L = [] then 1 / ((corpus.length : ℕ) : ℚ)
        else (1 - d) / ((corpus.length : ℕ) : ℚ) +
          ((L.count q : ℕ) : ℚ) * (d / ((L.length : ℕ) : ℚ))) := rfl
    rw [hred, if_neg hL]
    by_cases hqL : q ∈ L
    · rw [if_pos hqL, List.count_eq_one_of_mem hLprops.1 hqL]
      norm_num
    · rw [if_neg hqL, List.count_eq_zero_of_not_mem hqL]
      norm_num

/-- Witness for C1 at the concrete graph `{a: {b}, b: {}}`, page `a` (with a
link) and page-formula check handled by the theorem at damping 17/20. -/
theorem C1_transition_model_formula_witness :
    ∃ tm, transition_model [("a", ["b"]), ("b", [])] "a" (17/20) = some tm ∧
      keysOf tm = keysOf [("a", ["b"]), ("b", [])] ∧
      (["b"] = [] → ∀ q ∈ keysOf [("a", ["b"]), ("b", [])],
        dget tm q = some (1 / (([("a", ["b"]), ("b", [])].length : ℕ) : ℚ))) ∧
      (["b"] ≠ [] → ∀ q ∈ keysOf [("a", ["b"]), ("b", [])],
        dget tm q = some ((1 - 17/20) / (([("a", ["b"]), ("b", [])].length : ℕ) : ℚ) +
          if q ∈ ["b"] then (17/20 : ℚ) / ((["b"].length : ℕ) : ℚ) else 0)) :=
  C1_transition_model_formula
    ⟨by with_unfolding_all decide, by with_unfolding_all decide⟩
    (by with_unfolding_all decide)
    ⟨by norm_num, by norm_num⟩
    (by with_unfolding_all decide)

/-- C2: one relaxation step of the iterative estimator (`calculate_pr` with
`N` the number of pages) computes, for every page, `new[page] =
(1 - damping)/N + damping * Σ_k contribution(k, page)`, where the
contribution of `k` is `current[k]/N` for a sink, `current[k]/|links(k)|`
when `page ∈ links(k)`, and 0 otherwise (the `contribution` definition). -/
theorem C2_calculate_pr_formula {corpus : Dict (List String)} {current : Dict ℚ}
    {d : ℚ} (hwf : WellFormed corpus) (hne : corpus ≠ [])
    (hd : 0 ≤ d ∧ d ≤ 1)
    (hkeys : keysOf current = keysOf corpus) :
    ∃ new, calculate_pr corpus d current corpus.length = some new ∧
      keysOf new = keysOf corpus ∧
      ∀ q ∈ keysOf corpus, dget new q = some ((1 - d) / ((corpus.length : ℕ) : ℚ) +
        d * (corpus.map (fun kv => contribution current corpus.length kv q)).sum) := by
  have hcur : ∀ kv ∈ corpus, kv.1 ∈ keysOf current := by
    intro kv hm
    rw [hkeys]
    exact List.mem_map_of_mem Prod.fst hm
  obtain ⟨new, h1, h2, h3⟩ := calculate_pr_spec d hwf.1 hne hcur
  refine ⟨new, h1, h2, fun q hq => ?_⟩
  rw [h3 q hq, ← sum_map_mul_left]

/-- Witness for C2 at the concrete graph `{a: {b}, b: {a}, c: {a}}` and the
uniform rank vector, at damping 17/20. -/
theorem C2_calculate_pr_formula_witness :
    ∃ new, calculate_pr cexCorpus (17/20)
        [("a", 1/3), ("b", 1/3), ("c", 1/3)] cexCorpus.length = some new ∧
      keysOf new = keysOf cexCorpus ∧
      ∀ q ∈ keysOf cexCorpus,
        dget new q = some ((1 - 17/20) / ((cexCorpus.length : ℕ) : ℚ) +
          (17/20 : ℚ) * (cexCorpus.map (fun kv =>
            contribution [("a", 1/3), ("b", 1/3), ("c", 1/3)]
              cexCorpus.length kv q)).sum) :=
  C2_calculate_pr_formula
    ⟨by with_unfolding_all decide, by with_unfolding_all decide⟩
    (by with_unfolding_all decide)
    ⟨by norm_num, by norm_num⟩
    (by with_unfolding_all decide)

/-- C4: the convergence test inspects exactly one page, chosen from the rank
vector's key set by the random draw `r`, and reports convergence (`some
false`, since the source returns whether iteration must continue) if and
only if the absolute difference of the two ranks of that single page is at
most `TOLERANCE = 1e-3`; its verdict depends on no other page of the
current vector. -/
theorem C4_convergence_single_page {previous current : Dict ℚ} (r : ℕ)
    (hne : previous ≠ []) (hkeys : keysOf current = keysOf previous) :
    ∃ pg c p, pychoice (keysOf previous) r = some pg ∧ pg ∈ keysOf previous ∧
      dget current pg = some c ∧ dget previous pg = some p ∧
      (has_not_converged previous current r = some false ↔ |c - p| ≤ TOLERANCE) ∧
      (has_not_converged previous current r = some true ↔ TOLERANCE < |c - p|) ∧
      (∀ current2 : Dict ℚ, dget current2 pg = some c →
        has_not_converged previous current2 r =
          has_not_converged previous current r) := by
  obtain ⟨pg, c, p, hpg, hmem, hc, hp, hnc⟩ := has_not_converged_spec r hne hkeys
  refine ⟨pg, c, p, hpg, hmem, hc, hp, ?_, ?_, ?_⟩
  · rw [hnc]
    constructor
    · intro h
      have := Option.some.inj h
      rw [decide_eq_false_iff_not] at this
      exact not_lt.mp this
    · intro h
      rw [decide_eq_false_iff_not.mpr (not_lt.mpr h)]
  · rw [hnc]
    constructor
    · intro h
      have := Option.some.inj h
      exact of_decide_eq_true this
    · intro h
      exact congrArg some (decide_eq_true h)
  · intro current2 h2
    have hnc2 : has_not_converged previous current2 r =
        some (decide (|c - p| > TOLERANCE)) := by
      simp only [has_not_converged, hpg, h2, hp, Option.bind_eq_bind,
        Option.some_bind, Option.pure_def]
    rw [hnc2, hnc]

/-- Witness for C4 at the concrete vectors `cexV1`, `cexV2` with draw 2
(sampling page `c`). -/
theorem C4_convergence_single_page_witness :
    ∃ pg c p, pychoice (keysOf cexV1) 2 = some pg ∧ pg ∈ keysOf cexV1 ∧
      dget cexV2 pg = some c ∧ dget cexV1 pg = some p ∧
      (has_not_converged cexV1 cexV2 2 = some false ↔ |c - p| ≤ TOLERANCE) ∧
      (has_not_converged cexV1 cexV2 2 = some true ↔ TOLERANCE < |c - p|) ∧
      (∀ current2 : Dict ℚ, dget current2 pg = some c →
        has_not_converged cexV1 current2 2 = has_not_converged cexV1 cexV2 2) :=
  C4_convergence_single_page 2 (by with_unfolding_all decide)
    (by with_unfolding_all decide)

/-- C3: for every non-empty LinkGraph, damping in [0,1] and `n ≥ 1`,
`sample_pagerank` draws exactly `n` next pages (the initial uniformly chosen
starting page is not itself recorded as a sample: the walk starts from it
with an empty sample list) and assigns each page the rank
`(times drawn)/n`; consequently the returned values sum to exactly 1. -/
theorem C3_sample_pagerank_counts {corpus : Dict (List String)} {d : ℚ} {n : ℤ}
    (hwf : WellFormed corpus) (hne : corpus ≠ [])
    (hd : 0 ≤ d ∧ d ≤ 1) (hn : 1 ≤ n) (stream : ℕ → ℕ) :
    ∃ (start : String) (res : List String × String) (pr : Dict ℚ),
      pychoice (keysOf corpus) (stream 0) = some start ∧
      sampleWalk corpus d stream n.toNat 0 [] start = some res ∧
      res.1.length = n.toNat ∧
      sample_pagerank corpus d n stream = some pr ∧
      keysOf pr = keysOf corpus ∧
      (∀ k ∈ keysOf corpus,
        dget pr k = some (((res.1.count k : ℕ) : ℚ) / ((n : ℤ) : ℚ))) ∧
      valuesSum pr = 1 := by
  have hkne : keysOf corpus ≠ [] := fun h => hne (List.map_eq_nil_iff.mp h)
  obtain ⟨start, hstart, hsmem⟩ := pychoice_spec hkne (stream 0)
  obtain ⟨res, hres, hlen, hresmem⟩ :=
    sampleWalk_spec d stream hwf hne n.toNat 0 [] start hsmem (by simp)
  have hn0 : ((n : ℤ) : ℚ) ≠ 0 := by
    have h1 : (1 : ℚ) ≤ ((n : ℤ) : ℚ) := by exact_mod_cast hn
    linarith
  have hpr : sample_pagerank corpus d n stream = some (corpus.map (fun kv =>
      (kv.1, ((res.1.count kv.1 : ℕ) : ℚ) / ((n : ℤ) : ℚ)))) := by
    simp only [sample_pagerank, hstart, hres, Option.bind_eq_bind, Option.some_bind]
    exact mapM_pr corpus res.1 hn0
  have hlen2 : res.1.length = n.toNat := by rw [hlen]; simp
  have hkpr : keysOf (corpus.map (fun kv =>
      (kv.1, ((res.1.count kv.1 : ℕ) : ℚ) / ((n : ℤ) : ℚ)))) = keysOf corpus :=
    keysOf_map_fn corpus (fun k => ((res.1.count k : ℕ) : ℚ) / ((n : ℤ) : ℚ))
  have hval : ∀ k ∈ keysOf corpus,
      dget (corpus.map (fun kv =>
        (kv.1, ((res.1.count kv.1 : ℕ) : ℚ) / ((n : ℤ) : ℚ)))) k =
      some (((res.1.count k : ℕ) : ℚ) / ((n : ℤ) : ℚ)) := by
    intro k hk
    rw [dget_map_fn corpus (fun k => ((res.1.count k : ℕ) : ℚ) / ((n : ℤ) : ℚ)) k]
    obtain ⟨v, hv⟩ := Option.isSome_iff_exists.mp ((dget_isSome_iff corpus k).mpr hk)
    rw [hv]
    rfl
  refine ⟨start, res, _, hstart, hres, hlen2, hpr, hkpr, hval, ?_⟩
  rw [valuesSum_eq_sum hkpr hwf.1 hval]
  have hpt : ∀ k ∈ keysOf corpus,
      ((res.1.count k : ℕ) : ℚ) / ((n : ℤ) : ℚ) =
      ((res.1.count k : ℕ) : ℚ) * (((n : ℤ) : ℚ))⁻¹ := by
    intro k _
    rw [div_eq_mul_inv]
  rw [sum_map_congr hpt, sum_map_mul_right, sum_map_count hwf.1 hresmem, hlen2]
  have hcast : ((n.toNat : ℕ) : ℚ) = ((n : ℤ) : ℚ) := by
    have := Int.toNat_of_nonneg (le_trans zero_le_one hn)
    exact_mod_cast congrArg (fun z : ℤ => (z : ℚ)) this
  rw [hcast, mul_inv_cancel₀ hn0]

/-- Witness for C3 at the graph `{a: {b}, b: {a}, c: {a}}`, damping 17/20,
`n = 2`, and the all-zero draw stream. -/
theorem C3_sample_pagerank_counts_witness :
    ∃ (start : String) (res : List String × String) (pr : Dict ℚ),
      pychoice (keysOf cexCorpus) ((fun _ : ℕ => 0) 0) = some start ∧
      sampleWalk cexCorpus (17/20) (fun _ => 0) (2 : ℤ).toNat 0 [] start = some res ∧
      res.1.length = (2 : ℤ).toNat ∧
      sample_pagerank cexCorpus (17/20) 2 (fun _ => 0) = some pr ∧
      keysOf pr = keysOf cexCorpus ∧
      (∀ k ∈ keysOf cexCorpus,
        dget pr k = some (((res.1.count k : ℕ) : ℚ) / (((2 : ℤ) : ℤ) : ℚ))) ∧
      valuesSum pr = 1 :=
  C3_sample_pagerank_counts
    ⟨by with_unfolding_all decide, by with_unfolding_all decide⟩
    (by with_unfolding_all decide)
    ⟨by norm_num, by norm_num⟩
    (by norm_num)
    (fun _ => 0)

set_option maxRecDepth 8000 in
/-- C5 counterexample: two runs of `iterate_pagerank` on the identical graph
`{a: {b}, b: {a}, c: {a}}` and identical damping 17/20, differing only in
the random pages drawn by the convergence test, both succeed and return
different rank vectors — so the claim "no randomness is involved, two runs
on identical inputs return identical rank vectors" is false on the code:
`has_not_converged` draws a random page. -/
theorem C5_counterexample :
    (iterate_pagerank cexCorpus (17/20) 5 (fun _ => 1)).isSome ∧
    (iterate_pagerank cexCorpus (17/20) 5 (fun i => if i = 0 then 0 else 2)).isSome ∧
    iterate_pagerank cexCorpus (17/20) 5 (fun _ => 1) ≠
      iterate_pagerank cexCorpus (17/20) 5 (fun i => if i = 0 then 0 else 2) := by
  refine ⟨?_, ?_, ?_⟩
  · with_unfolding_all decide
  · with_unfolding_all decide
  · with_unfolding_all decide

/-- C5 amended: the relaxation sequence itself is deterministic — whatever
pages the convergence test draws, any vector `iterate_pagerank` returns is
an element (of index ≥ 1) of the deterministic iterate sequence `prSeq`
generated from the uniform initial vector by `calculate_pr`; the random
draws only decide which element is returned (and C5's counterexample shows
different draws can return different elements). -/
theorem C5_amended_deterministic_chain {corpus : Dict (List String)} {d : ℚ}
    {fuel : ℕ} {stream : ℕ → ℕ} {r : Dict ℚ}
    (h : iterate_pagerank corpus d fuel stream = some r) :
    ∃ k, 1 ≤ k ∧ prSeq corpus d k = some r :=
  iterate_pagerank_mem_prSeq h

set_option maxRecDepth 8000 in
/-- Witness for the amended C5 at a concrete terminating run. -/
theorem C5_amended_deterministic_chain_witness :
    ∃ k, 1 ≤ k ∧ prSeq cexCorpus (17/20) k = some cexV1 :=
  C5_amended_deterministic_chain
    (show iterate_pagerank cexCorpus (17/20) 5 (fun _ => 1) = some cexV1 by
      with_unfolding_all decide)

/-- C6 counterexample: `transition_model` on the valid one-page graph
`{a: {}}` with damping 2 (outside [0,1]) succeeds instead of failing with
an InvalidInput error — the code performs no damping validation. -/
theorem C6_counterexample :
    (transition_model [("a", [])] "a" 2).isSome = true := by
  with_unfolding_all decide

/-- C6 amended: the code performs no explicit input validation; failures
surface only from the underlying operations. `transition_model` fails (a
key lookup error) exactly when the page is not a key of the graph — hence
always on an empty graph — and accepts any damping factor;
`sample_pagerank` fails on an empty graph (drawing from an empty sequence)
and on `n = 0` (a zero division), while `n < 0` returns without error;
`iterate_pagerank` fails on an empty graph (a zero division), and the
relaxation step accepts any damping factor. -/
theorem C6_amended_no_validation {corpus : Dict (List String)}
    (hwf : WellFormed corpus) (hne : corpus ≠ []) :
    (∀ (page : String) (d : ℚ),
      (transition_model corpus page d).isSome ↔ page ∈ keysOf corpus) ∧
    (∀ (d : ℚ) (n : ℤ) (stream : ℕ → ℕ), sample_pagerank [] d n stream = none) ∧
    (∀ (d : ℚ) (stream : ℕ → ℕ), sample_pagerank corpus d 0 stream = none) ∧
    (∀ (d : ℚ) (n : ℤ) (stream : ℕ → ℕ), n < 0 →
      (sample_pagerank corpus d n stream).isSome) ∧
    (∀ (d : ℚ) (fuel : ℕ) (stream : ℕ → ℕ),
      iterate_pagerank [] d fuel stream = none) ∧
    (∀ d : ℚ, (prSeq corpus d 1).isSome) := by
  have hkne : keysOf corpus ≠ [] := fun h => hne (List.map_eq_nil_iff.mp h)
  refine ⟨?_, ?_, ?_, ?_, ?_, ?_⟩
  · intro page d
    constructor
    · intro h
      by_contra hmem
      have hnone : dget corpus page = none := dget_eq_none_of_not_mem hmem
      simp only [transition_model, hnone, Option.bind_eq_bind, Option.none_bind] at h
      simp at h
    · intro hmem
      obtain ⟨tm, h1, _⟩ := transition_model_total d hwf hmem
      rw [h1]
      rfl
  · intro d n stream
    rfl
  · intro d stream
    obtain ⟨start, hstart, _⟩ := pychoice_spec hkne (stream 0)
    rw [sample_pagerank_nonpos d 0 (le_refl 0) stream hstart]
    exact mapM_pr_none hne [] (by norm_num)
  · intro d n stream hneg
    obtain ⟨start, hstart, _⟩ := pychoice_spec hkne (stream 0)
    have hn0 : ((n : ℤ) : ℚ) ≠ 0 := by
      have : ((n : ℤ) : ℚ) < 0 := by exact_mod_cast hneg
      linarith
    rw [sample_pagerank_nonpos d n (le_of_lt hneg) stream hstart]
    rw [mapM_pr corpus [] hn0]
    rfl
  · intro d fuel stream
    simp [iterate_pagerank, pydiv]
  · intro d
    obtain ⟨v, hv, _⟩ := prSeq_spec d hwf hne 1
    rw [hv]
    rfl

/-- Witness for the amended C6 at the graph `{a: {b}, b: {a}, c: {a}}`. -/
theorem C6_amended_no_validation_witness :
    (∀ (page : String) (d : ℚ),
      (transition_model cexCorpus page d).isSome ↔ page ∈ keysOf cexCorpus) ∧
    (∀ (d : ℚ) (n : ℤ) (stream : ℕ → ℕ), sample_pagerank [] d n stream = none) ∧
    (∀ (d : ℚ) (stream : ℕ → ℕ), sample_pagerank cexCorpus d 0 stream = none) ∧
    (∀ (d : ℚ) (n : ℤ) (stream : ℕ → ℕ), n < 0 →
      (sample_pagerank cexCorpus d n stream).isSome) ∧
    (∀ (d : ℚ) (fuel : ℕ) (stream : ℕ → ℕ),
      iterate_pagerank [] d fuel stream = none) ∧
    (∀ d : ℚ, (prSeq cexCorpus d 1).isSome) :=
  C6_amended_no_validation
    ⟨by with_unfolding_all decide, by with_unfolding_all decide⟩
    (by with_unfolding_all decide)

/-- C7: for every non-empty LinkGraph, page that is a key, and damping in
[0,1], the distribution returned by `transition_model` has exactly one entry
per page of the corpus (same key list), every value is non-negative, and the
values sum to exactly 1 — hence to 1.0 within the 1e-9 tolerance. -/
theorem C7_transition_model_distribution {corpus : Dict (List String)}
    {page : String} {d : ℚ}
    (hwf : WellFormed corpus) (hne : corpus ≠ [])
    (hd : 0 ≤ d ∧ d ≤ 1) (hpage : page ∈ keysOf corpus) :
    ∃ tm, transition_model corpus page d = some tm ∧
      keysOf tm = keysOf corpus ∧
      (∀ kv ∈ tm, 0 ≤ kv.2) ∧
      valuesSum tm = 1 ∧ |valuesSum tm - 1| ≤ 1 / 1000000000 := by
  have hN : ((corpus.length : ℕ) : ℚ) ≠ 0 := by
    have := List.length_pos.mpr hne
    exact_mod_cast Nat.pos_iff_ne_zero.mp this
  have hNpos : (0 : ℚ) < ((corpus.length : ℕ) : ℚ) := by
    exact_mod_cast List.length_pos.mpr hne
  obtain ⟨L, hL⟩ := Option.isSome_iff_exists.mp ((dget_isSome_iff corpus page).mpr hpage)
  have hLprops := hwf.2 (page, L) (dget_mem hL)
  obtain ⟨tm, h1, h2, h3⟩ := transition_model_spec d hwf.1 hL hLprops.2
  have hval : ∀ q ∈ keysOf corpus, dget tm q = some (
      if L = [] then 1 / ((corpus.length : ℕ) : ℚ)
      else (1 - d) / ((corpus.length : ℕ) : ℚ) +
        ((L.count q : ℕ) : ℚ) * (d / ((L.length : ℕ) : ℚ))) := by
    intro q hq
    rw [h3 q]
    obtain ⟨v, hv⟩ := Option.isSome_iff_exists.mp ((dget_isSome_iff corpus q).mpr hq)
    rw [hv]
    rfl
  have hFnn : ∀ q : String, 0 ≤
      (if L = [] then 1 / ((corpus.length : ℕ) : ℚ)
      else (1 - d) / ((corpus.length : ℕ) : ℚ) +
        ((L.count q : ℕ) : ℚ) * (d / ((L.length : ℕ) : ℚ))) := by
    intro q
    by_cases hLe : L = []
    · rw [if_pos hLe]
      positivity
    · rw [if_neg hLe]
      have hlenpos : (0 : ℚ) < ((L.length : ℕ) : ℚ) := by
        exact_mod_cast List.length_pos.mpr hLe
      have t1 : 0 ≤ (1 - d) / ((corpus.length : ℕ) : ℚ) :=
        div_nonneg (by linarith [hd.2]) (le_of_lt hNpos)
      have t2 : 0 ≤ ((L.count q : ℕ) : ℚ) * (d / ((L.length : ℕ) : ℚ)) :=
        mul_nonneg (by positivity) (div_nonneg hd.1 (le_of_lt hlenpos))
      linarith
  have hsum : valuesSum tm = 1 := by
    rw [valuesSum_eq_sum h2 hwf.1 hval]
    have hlen : (keysOf corpus).length = corpus.length := List.length_map _ _
    by_cases hLe : L = []
    · have hpt : ∀ q ∈ keysOf corpus,
          (if L = [] then 1 / ((corpus.length : ℕ) : ℚ)
          else (1 - d) / ((corpus.length : ℕ) : ℚ) +
            ((L.count q : ℕ) : ℚ) * (d / ((L.length : ℕ) : ℚ))) =
          1 / ((corpus.length : ℕ) : ℚ) := by
        intro q _
        rw [if_pos hLe]
      rw [sum_map_congr hpt, sum_map_const, hlen]
      field_simp
    · have hlen0 : ((L.length : ℕ) : ℚ) ≠ 0 := by
        have := List.length_pos.mpr hLe
        exact_mod_cast Nat.pos_iff_ne_zero.mp this
      have hpt : ∀ q ∈ keysOf corpus,
          (if L = [] then 1 / ((corpus.length : ℕ) : ℚ)
          else (1 - d) / ((corpus.length : ℕ) : ℚ) +
            ((L.count q : ℕ) : ℚ) * (d / ((L.length : ℕ) : ℚ))) =
          (1 - d) / ((corpus.length : ℕ) : ℚ) +
            ((L.count q : ℕ) : ℚ) * (d / ((L.length : ℕ) : ℚ)) := by
        intro q _
        rw [if_neg hLe]
      rw [sum_map_congr hpt, sum_map_add, sum_map_const, sum_map_mul_right,
        sum_map_count hwf.1 hLprops.2, hlen]
      field_simp
  have hvaltm : ∀ q ∈ keysOf tm, dget tm q = some (
      if L = [] then 1 / ((corpus.length : ℕ) : ℚ)
      else (1 - d) / ((corpus.length : ℕ) : ℚ) +
        ((L.count q : ℕ) : ℚ) * (d / ((L.length : ℕ) : ℚ))) := by
    rw [h2]
    exact hval
  have hndtm : (keysOf tm).Nodup := by
    rw [h2]
    exact hwf.1
  have hnn : ∀ kv ∈ tm, 0 ≤ kv.2 := by
    intro kv hm
    rw [entry_val_eq hndtm hvaltm kv hm]
    exact hFnn kv.1
  exact ⟨tm, h1, h2, hnn, hsum, by rw [hsum]; norm_num⟩

/-- Witness for C7 at the graph `{a: {b}, b: {}}`, page `a`, damping 17/20. -/
theorem C7_transition_model_distribution_witness :
    ∃ tm, transition_model [("a", ["b"]), ("b", [])] "a" (17/20) = some tm ∧
      keysOf tm = keysOf [("a", ["b"]), ("b", [])] ∧
      (∀ kv ∈ tm, 0 ≤ kv.2) ∧
      valuesSum tm = 1 ∧ |valuesSum tm - 1| ≤ 1 / 1000000000 :=
  C7_transition_model_distribution
    ⟨by with_unfolding_all decide, by with_unfolding_all decide⟩
    (by with_unfolding_all decide)
    ⟨by norm_num, by norm_num⟩
    (by with_unfolding_all decide)

/-- C8 counterexample: on the non-empty graph `{a: {b, c}, b: {a}, c: {a}}`
with damping 1 (inside [0,1]), the relaxation oscillates with every page's
rank changing by at least 1/6 each step, so the convergence test can never
pass: for every fuel bound and every sequence of random draws the loop of
`iterate_pagerank` is still running — the claim that iteration always stops
after finitely many steps is false on the code. -/
theorem C8_counterexample :
    oscCorpus ≠ [] ∧ (0 : ℚ) ≤ 1 ∧ (1 : ℚ) ≤ 1 ∧
    ∀ (fuel : ℕ) (stream : ℕ → ℕ), iterate_pagerank oscCorpus 1 fuel stream = none :=
  ⟨by with_unfolding_all decide, by norm_num, by norm_num, osc_iterate_none⟩

/-- C8 amended: for every non-empty LinkGraph and damping factor in [0,1)
(damping 1 excluded, as the counterexample forces), `iterate_pagerank`
terminates: there is a finite fuel bound after which the loop has stopped,
whatever pages the convergence test draws — the relaxation contracts total
absolute difference by the damping factor each step, so eventually every
page is within `TOLERANCE` and the test must pass. -/
theorem C8_amended_terminates {corpus : Dict (List String)} {d : ℚ}
    (hwf : WellFormed corpus) (hne : corpus ≠ [])
    (hd0 : 0 ≤ d) (hd1 : d < 1) :
    ∃ fuel, ∀ stream, (iterate_pagerank corpus d fuel stream).isSome :=
  iterate_pagerank_terminates hwf hne hd0 hd1

/-- Witness for the amended C8 at the graph `{a: {b}, b: {a}, c: {a}}`
with damping 17/20. -/
theorem C8_amended_terminates_witness :
    ∃ fuel, ∀ stream, (iterate_pagerank cexCorpus (17/20) fuel stream).isSome :=
  C8_amended_terminates
    ⟨by with_unfolding_all decide, by with_unfolding_all decide⟩
    (by with_unfolding_all decide)
    (by norm_num)
    (by norm_num)

set_option maxRecDepth 8000 in
/-- C9 counterexample: `cexV1` is a reachable rank vector (the first iterate
of `{a: {b}, b: {a}, c: {a}}` at damping 17/20) whose relaxation step
satisfies the code's convergence criterion — the randomly sampled page `c`
(draw 2) moved by 0 ≤ TOLERANCE — yet the step moves page `a` by 289/1200,
far more than the tolerance: a vector "satisfying the convergence
criterion" does not make the relaxation idempotent entrywise. -/
theorem C9_counterexample :
    prSeq cexCorpus (17/20) 1 = some cexV1 ∧
    calculate_pr cexCorpus (17/20) cexV1 3 = some cexV2 ∧
    has_not_converged cexV1 cexV2 2 = some false ∧
    ¬ (∀ q ∈ keysOf cexCorpus,
        |(dget cexV2 q).getD 0 - (dget cexV1 q).getD 0| ≤ TOLERANCE) := by
  refine ⟨?_, ?_, ?_, ?_⟩
  · with_unfolding_all decide
  · with_unfolding_all decide
  · with_unfolding_all decide
  · with_unfolding_all decide

/-- C9 amended: idempotence at the fixed point holds for the strong,
all-coordinates form of the criterion measured in total absolute difference:
if one relaxation step moves the rank vector by at most `TOLERANCE` in L1
distance, then (the vector is within tolerance of its step, and) the
stepped vector is again moved at most `TOLERANCE` in L1 by the next step —
near-fixed points stay near-fixed, because the step contracts L1 distance
by the damping factor.  The code's single-random-coordinate criterion does
not guarantee the entrywise property (see the counterexample). -/
theorem C9_amended_l1_stability {corpus : Dict (List String)} {cur new : Dict ℚ}
    {d : ℚ} (hwf : WellFormed corpus) (hne : corpus ≠ [])
    (hd : 0 ≤ d ∧ d ≤ 1) (hkeys : keysOf cur = keysOf corpus)
    (hstep : calculate_pr corpus d cur corpus.length = some new)
    (hconv : l1dist (keysOf corpus) new cur ≤ TOLERANCE) :
    l1dist (keysOf corpus) new cur ≤ TOLERANCE ∧
    ∃ new2, calculate_pr corpus d new corpus.length = some new2 ∧
      l1dist (keysOf corpus) new2 new ≤ TOLERANCE := by
  have hcur : ∀ kv ∈ corpus, kv.1 ∈ keysOf cur := by
    intro kv hm
    rw [hkeys]
    exact List.mem_map_of_mem Prod.fst hm
  obtain ⟨new0, hnew0, hknew0, _⟩ := calculate_pr_spec d hwf.1 hne hcur
  have he : new = new0 := Option.some.inj (hstep.symm.trans hnew0)
  have hknew : keysOf new = keysOf corpus := by rw [he]; exact hknew0
  have hcur2 : ∀ kv ∈ corpus, kv.1 ∈ keysOf new := by
    intro kv hm
    rw [hknew]
    exact List.mem_map_of_mem Prod.fst hm
  obtain ⟨new2, hnew2, _, _⟩ := calculate_pr_spec d hwf.1 hne hcur2
  refine ⟨hconv, new2, hnew2, ?_⟩
  have hcontr : l1dist (keysOf corpus) new2 new ≤ d * l1dist (keysOf corpus) new cur :=
    calculate_pr_contraction d hd.1 hwf hne hknew hkeys hnew2 hstep
  have hmul : d * l1dist (keysOf corpus) new cur ≤ l1dist (keysOf corpus) new cur :=
    mul_le_of_le_one_left (l1dist_nonneg _ _ _) hd.2
  linarith

/-- Witness for the amended C9 at the one-page graph `{a: {}}` with the
exact fixed point `{a: 1}` at damping 17/20. -/
theorem C9_amended_l1_stability_witness :
    l1dist (keysOf [("a", ([] : List String))])
      [("a", (1 : ℚ))] [("a", (1 : ℚ))] ≤ TOLERANCE ∧
    ∃ new2, calculate_pr [("a", ([] : List String))] (17/20)
        [("a", (1 : ℚ))] [("a", ([] : List String))].length = some new2 ∧
      l1dist (keysOf [("a", ([] : List String))]) new2 [("a", (1 : ℚ))] ≤ TOLERANCE :=
  C9_amended_l1_stability
    ⟨by with_unfolding_all decide, by with_unfolding_all decide⟩
    (by with_unfolding_all decide)
    ⟨by norm_num, by norm_num⟩
    (by with_unfolding_all decide)
    (by with_unfolding_all decide)
    (by with_unfolding_all decide)

/-- C10 (implicit): sum preservation of the relaxation step — for every
non-empty LinkGraph (link sets within the corpus), damping in [0,1] and
current rank vector over exactly the corpus pages summing to 1, the vector
returned by `calculate_pr` sums exactly to 1 in rational arithmetic; and
consequently every vector `iterate_pagerank` returns has total mass 1. -/
theorem C10_sum_preservation {corpus : Dict (List String)} {current : Dict ℚ}
    {d : ℚ} (hwf : WellFormed corpus) (hne : corpus ≠ [])
    (hd : 0 ≤ d ∧ d ≤ 1)
    (hkeys : keysOf current = keysOf corpus) (hsum : valuesSum current = 1) :
    (∃ new, calculate_pr corpus d current corpus.length = some new ∧
      keysOf new = keysOf corpus ∧ valuesSum new = 1) ∧
    (∀ (fuel : ℕ) (stream : ℕ → ℕ) (r : Dict ℚ),
      iterate_pagerank corpus d fuel stream = some r → valuesSum r = 1) := by
  constructor
  · exact calculate_pr_sum d hwf hne hkeys hsum
  · intro fuel stream r hr
    obtain ⟨k, _, hk⟩ := iterate_pagerank_mem_prSeq hr
    exact prSeq_mass hwf hne k r hk

/-- Witness for C10 at the graph `{a: {b}, b: {a}, c: {a}}` with the uniform
vector and damping 17/20. -/
theorem C10_sum_preservation_witness :
    (∃ new, calculate_pr cexCorpus (17/20)
        [("a", (1 : ℚ)/3), ("b", (1 : ℚ)/3), ("c", (1 : ℚ)/3)] cexCorpus.length =
        some new ∧
      keysOf new = keysOf cexCorpus ∧ valuesSum new = 1) ∧
    (∀ (fuel : ℕ) (stream : ℕ → ℕ) (r : Dict ℚ),
      iterate_pagerank cexCorpus (17/20) fuel stream = some r → valuesSum r = 1) :=
  C10_sum_preservation
    ⟨by with_unfolding_all decide, by with_unfolding_all decide⟩
    (by with_unfolding_all decide)
    ⟨by norm_num, by norm_num⟩
    (by with_unfolding_all decide)
    (by with_unfolding_all decide)

end Claims

end PageRank
